import Mathlib

/-!
Shallow embedding of the vocabgen puzzle generators:
the deductive chain assembler (DGAGenerator), the crossword placement
engine (CrosswordGenerator) and the constraint board assembler
(TicTacGenerator), together with proofs of the behavioural properties
claimed in the specification.

Words and clue strings are modelled as lists of characters.  The ambient
JavaScript random source (Math.random) is modelled by an explicit stream
of natural numbers that is threaded through every randomized routine, so
each engine becomes a pure function of its inputs plus the draw sequence.
-/

namespace Vocabgen

open List (Perm)

/-- A word is a list of characters (a JS string). -/
abbrev Word := List Char

/-- The model of the ambient random source: a stream of pre-drawn natural
numbers consumed left to right (an exhausted stream keeps producing 0). -/
abbrev Rng := List Nat

/-- Consume one raw draw from the stream. -/
def drawNat (σ : Rng) : Nat × Rng := (σ.headD 0, σ.tail)

/-- Model of Math.floor(Math.random() * n): a draw reduced below n. -/
def randBelow (σ : Rng) (n : Nat) : Nat × Rng :=
  let p := drawNat σ
  (if n = 0 then 0 else p.1 % n, p.2)

/-- First-occurrence deduplication with an explicit seen accumulator
(the behaviour of iterating a JS Set or Map in insertion order). -/
def dedupFirstAux [DecidableEq α] (seen : List α) : List α → List α
  | [] => []
  | x :: xs =>
    if x ∈ seen then dedupFirstAux seen xs
    else x :: dedupFirstAux (x :: seen) xs

/-- First-occurrence deduplication, as Array.from(new Set(l)). -/
def dedupFirst [DecidableEq α] (l : List α) : List α := dedupFirstAux [] l

/-- Swap of two list positions; identity when either index is out of range. -/
def listSwap [DecidableEq α] (l : List α) (i j : Nat) : List α :=
  match l.get? i, l.get? j with
  | some a, some b => (l.set i b).set j a
  | _, _ => l

/-- One backwards pass of the Fisher-Yates shuffle: the argument is the
current index i; at each step j is drawn below i+1 and positions i, j are
swapped. -/
def fyAux [DecidableEq α] (l : List α) (σ : Rng) : Nat → List α × Rng
  | 0 => (l, σ)
  | i + 1 =>
    let p := randBelow σ (i + 2)
    fyAux (listSwap l (i + 1) p.1) p.2 i

/-- The Fisher-Yates shuffle used by all three generators (loops i from
length-1 down to 1, drawing j below i+1 and swapping). -/
def fisherYates [DecidableEq α] (l : List α) (σ : Rng) : List α × Rng :=
  fyAux l σ (l.length - 1)

/-- Insertion into a list sorted by the boolean comparator le. -/
def insertB (le : α → α → Bool) (a : α) : List α → List α
  | [] => [a]
  | b :: l => if le a b then a :: b :: l else b :: insertB le a l

/-- Insertion sort by a boolean comparator; models the observable result
of the JS Array.prototype.sort calls (a sorted permutation). -/
def sortB (le : α → α → Bool) (l : List α) : List α :=
  l.foldr (insertB le) []

/-- Lexicographic comparison of words by character code, the behaviour of
the default JS string comparator used by Array.prototype.sort(). -/
def lexLe : Word → Word → Bool
  | [], _ => true
  | _ :: _, [] => false
  | a :: as, b :: bs => if a < b then true else if a = b then lexLe as bs else false

/-! ### Deductive chain assembler (DGAGenerator) -/

/-- The six letter-reveal constraint kinds of the DGA. -/
inductive ConstraintType
  | START_1 | START_2 | START_3 | END_1 | END_2 | END_3
deriving DecidableEq, Repr

/-- Which side of the visual clue carries the indeterminate blank run. -/
inductive Side
  | leading | trailing
deriving DecidableEq, Repr

/-- The visual clue specification built by DGAGenerator.getVisual. -/
structure DGAVisual where
  display : String
  anchorChar : Char
  shortLeadingSlots : Nat
  shortTrailingSlots : Nat
  infiniteSide : Side
  infiniteSlotCount : Nat
deriving DecidableEq, Repr

/-- DGAGenerator.getChar: the character revealed by a constraint kind,
none when the word is too short for that position. -/
def getChar (word : Word) : ConstraintType → Option Char
  | .START_1 => word.get? 0
  | .START_2 => word.get? 1
  | .START_3 => word.get? 2
  | .END_1 => if 1 ≤ word.length then word.get? (word.length - 1) else none
  | .END_2 => if 2 ≤ word.length then word.get? (word.length - 2) else none
  | .END_3 => if 3 ≤ word.length then word.get? (word.length - 3) else none

/-- A run of n underscores separated by spaces (Array(n).fill and join). -/
def spacedSlots (n : Nat) : String :=
  String.intercalate " " (List.replicate n "_")

/-- DGAGenerator.getVisual buildIndeterminate: display and slot count of
the indeterminate-length blank run for a gap. -/
def buildIndeterminate (gap : Nat) : String × Nat :=
  if 2 ≤ gap then ("________________", 12)
  else if gap = 1 then ("_", 1)
  else ("", 0)

/-- DGAGenerator.getVisual common helper. -/
def commonVisual (anchorChar : Char) (sl st : Nat) (side : Side) (gap : Nat) :
    DGAVisual :=
  let ind := buildIndeterminate gap
  let pieces :=
    (if side = Side.leading ∧ ind.1 ≠ "" then [ind.1] else []) ++
    (if 0 < sl then [spacedSlots sl] else []) ++
    [String.singleton anchorChar] ++
    (if 0 < st then [spacedSlots st] else []) ++
    (if side = Side.trailing ∧ ind.1 ≠ "" then [ind.1] else [])
  { display := String.intercalate " " pieces
    anchorChar := anchorChar
    shortLeadingSlots := sl
    shortTrailingSlots := st
    infiniteSide := side
    infiniteSlotCount := ind.2 }

/-- DGAGenerator.getVisual (the out-of-range accesses use a placeholder;
every call site guards them with getChar and the length gates). -/
def getVisual (word : Word) : ConstraintType → DGAVisual
  | .START_1 => commonVisual (word.getD 0 '?') 0 0 .trailing (word.length - 1)
  | .START_2 => commonVisual (word.getD 1 '?') 1 0 .trailing (word.length - 2)
  | .START_3 => commonVisual (word.getD 2 '?') 2 0 .trailing (word.length - 3)
  | .END_1 => commonVisual (word.getD (word.length - 1) '?') 0 0 .leading (word.length - 1)
  | .END_2 => commonVisual (word.getD (word.length - 2) '?') 0 1 .leading (word.length - 2)
  | .END_3 => commonVisual (word.getD (word.length - 3) '?') 0 2 .leading (word.length - 3)

/-- A letter-reveal constraint (interface DGAConstraint). -/
structure DGAConstraint where
  ctype : ConstraintType
  char : Char
  visual : DGAVisual
  targetWord : Word
  overlapScore : Nat
deriving DecidableEq, Repr

/-- DGAGenerator.matches: does the candidate word satisfy the constraint. -/
def matchesB (c : DGAConstraint) (w : Word) : Bool :=
  decide (getChar w c.ctype = some c.char)

/-- The minimum-length gates applied before a constraint is created. -/
def passesLengthRequirement : ConstraintType → Nat → Bool
  | .START_3, len => 5 ≤ len
  | .END_3, len => 5 ≤ len
  | .START_2, len => 4 ≤ len
  | .END_2, len => 4 ≤ len
  | _, _ => true

/-- Number of pool words revealing the same character at the same kind. -/
def overlapScoreOf (uw : List Word) (t : ConstraintType) (ch : Char) : Nat :=
  (uw.filter (fun w => decide (getChar w t = some ch))).length

/-- The constraint built for one word and one kind, none when the kind is
unavailable for the word. -/
def mkConstraint (uw : List Word) (w : Word) (t : ConstraintType) :
    Option DGAConstraint :=
  match getChar w t with
  | none => none
  | some ch =>
    if passesLengthRequirement t w.length then
      some { ctype := t, char := ch, visual := getVisual w t, targetWord := w,
             overlapScore := overlapScoreOf uw t ch }
    else none

/-- The six kinds in the order the source iterates them. -/
def constraintTypes : List ConstraintType :=
  [.START_1, .START_2, .START_3, .END_1, .END_2, .END_3]

/-- All constraints available for a word (constraintsByWord .all). -/
def wordConstraints (uw : List Word) (w : Word) : List DGAConstraint :=
  constraintTypes.filterMap (mkConstraint uw w)

/-- The ambiguous constraints of a word (overlap score at least 2). -/
def ambiguousOf (uw : List Word) (w : Word) : List DGAConstraint :=
  (wordConstraints uw w).filter (fun c => decide (2 ≤ c.overlapScore))

/-- The unique constraints of a word (overlap score exactly 1). -/
def uniqueOf (uw : List Word) (w : Word) : List DGAConstraint :=
  (wordConstraints uw w).filter (fun c => decide (c.overlapScore = 1))

/-- The pool words belonging to the ambiguous bucket of a (kind, char)
pair, in pool order (bucketWordMembers). -/
def bucketMembers (uw : List Word) (t : ConstraintType) (ch : Char) : List Word :=
  uw.filter (fun w =>
    decide (getChar w t = some ch) && passesLengthRequirement t w.length)

/-- The (kind, char) keys of all ambiguous buckets in insertion order. -/
def ambiguousBucketKeys (uw : List Word) : List (ConstraintType × Char) :=
  dedupFirst (uw.flatMap (fun w => (ambiguousOf uw w).map (fun c => (c.ctype, c.char))))

/-- The adjacency neighbours of a word in the ambiguity graph. -/
def neighborsOf (uw : List Word) (w : Word) : List Word :=
  dedupFirst ((ambiguousBucketKeys uw).flatMap (fun k =>
    let ms := bucketMembers uw k.1 k.2
    if w ∈ ms then ms.filter (fun m => decide (m ≠ w)) else []))

/-- The iterative stack DFS of the component computation; the stack keeps
its top at the head, so pushing appends reversed neighbour lists. -/
def dfsLoop (nbrs : Word → List Word) :
    Nat → List Word → List Word → List Word → List Word × List Word
  | 0, _, visited, comp => (comp, visited)
  | _ + 1, [], visited, comp => (comp, visited)
  | fuel + 1, cur :: rest, visited, comp =>
    if cur ∈ visited then dfsLoop nbrs fuel rest visited comp
    else
      let visited2 := visited ++ [cur]
      dfsLoop nbrs fuel
        (((nbrs cur).filter (fun n => decide (n ∉ visited2))).reverse ++ rest)
        visited2 (comp ++ [cur])

/-- Connected components of the ambiguity graph in discovery order. -/
def componentsAux (nbrs : Word → List Word) (fuel : Nat) :
    List Word → List Word → List (List Word) → List (List Word)
  | [], _, comps => comps
  | w :: ws, visited, comps =>
    if w ∈ visited then componentsAux nbrs fuel ws visited comps
    else
      let r := dfsLoop nbrs fuel [w] visited []
      componentsAux nbrs fuel ws r.2 (comps ++ [r.1])

/-- All components of the ambiguity graph over the pool. -/
def componentsOf (uw : List Word) : List (List Word) :=
  componentsAux (neighborsOf uw) ((uw.length + 1) * (uw.length + 1)) uw [] []

/-- The components that can host an ambiguous clue. -/
def ambiguousComponents (uw : List Word) : List (List Word) :=
  (componentsOf uw).filter (fun comp =>
    decide (1 < comp.length) && comp.any (fun w => !(ambiguousOf uw w).isEmpty))

/-- chooseFrom: first element when deterministic, a drawn index otherwise. -/
def chooseFrom [DecidableEq α] (arr : List α) (randomize : Bool) (σ : Rng) :
    Option α × Rng :=
  match arr with
  | [] => (none, σ)
  | _ :: _ =>
    if randomize then
      let p := randBelow σ arr.length
      (arr.get? p.1, p.2)
    else (arr.get? 0, σ)

/-- Collection of forced-ambiguous candidates: every component of size at
least 2 contributes all its words but a popped anchor. -/
def collectForcedCandidates (randomize : Bool) :
    List (Nat × List Word) → Rng → List (Word × Nat) × Rng
  | [], σ => ([], σ)
  | (idx, ws) :: rest, σ =>
    if ws.length ≤ 1 then collectForcedCandidates randomize rest σ
    else
      let p1 := if randomize then fisherYates ws σ else (ws, σ)
      match p1.1 with
      | [] => collectForcedCandidates randomize rest p1.2
      | _ :: _ =>
        let wordsCopy := p1.1.dropLast
        let p2 := if randomize then fisherYates wordsCopy p1.2 else (wordsCopy, p1.2)
        let r := collectForcedCandidates randomize rest p2.2
        (p2.1.map (fun w => (w, idx)) ++ r.1, r.2)

/-- The quota-respecting greedy pick over the ordered candidates: at most
size-1 words per component, stopping at the desired count. -/
def forcedPickLoop (ambComps : List (List Word)) (desired : Nat) :
    List (Word × Nat) → List Word → List (Nat × Nat) → List Word
  | [], forced, _ => forced
  | (w, ci) :: rest, forced, usage =>
    if desired ≤ forced.length then forced
    else
      let limit := ((ambComps.get? ci).map List.length).getD 0 - 1
      if limit = 0 then forcedPickLoop ambComps desired rest forced usage
      else
        let used := ((usage.lookup ci).getD 0)
        if limit ≤ used then forcedPickLoop ambComps desired rest forced usage
        else
          let forced2 := if w ∈ forced then forced else forced ++ [w]
          forcedPickLoop ambComps desired rest forced2 ((ci, used + 1) :: usage)

/-- computeForcedAmbiguousSet of the source. -/
def computeForcedAmbiguousSet (ambComps : List (List Word)) (desired : Nat)
    (randomize : Bool) (σ : Rng) : List Word × Rng :=
  if desired = 0 then ([], σ)
  else
    let p := collectForcedCandidates randomize ambComps.enum σ
    let p2 := if randomize then fisherYates p.1 p.2 else (p.1, p.2)
    (forcedPickLoop ambComps desired p2.1 [] [], p2.2)

/-- The ambiguous constraints of a word whose bucket has a member that is
neither the word itself nor forced (the deadlock-avoiding preference). -/
def preferredAmbiguous (uw : List Word) (forced : List Word) (w : Word) :
    List DGAConstraint :=
  (ambiguousOf uw w).filter (fun c =>
    (bucketMembers uw c.ctype c.char).any (fun m =>
      decide (m ≠ w) && decide (m ∉ forced)))

/-- attemptBuild pickAmbiguousFor. -/
def pickAmbiguousFor (uw : List Word) (forced : List Word) (w : Word)
    (randomize : Bool) (σ : Rng) : Option DGAConstraint × Rng :=
  if (ambiguousOf uw w).isEmpty then (none, σ)
  else if (preferredAmbiguous uw forced w).isEmpty then
    chooseFrom (ambiguousOf uw w) randomize σ
  else chooseFrom (preferredAmbiguous uw forced w) randomize σ

/-- The loop of attemptBuild over the forced words; the selection is an
insertion-ordered association list keyed by word. -/
def pickForcedLoop (uw : List Word) (forced : List Word) (randomize : Bool) :
    List Word → List (Word × DGAConstraint) → Rng →
    Option (List (Word × DGAConstraint)) × Rng
  | [], sel, σ => (some sel, σ)
  | w :: rest, sel, σ =>
    match pickAmbiguousFor uw forced w randomize σ with
    | (none, σ2) => (none, σ2)
    | (some c, σ2) => pickForcedLoop uw forced randomize rest (sel ++ [(w, c)]) σ2

/-- The constraint choice of attemptBuild for a non-forced word: a unique
constraint when one exists, then the preferred ambiguous ones, then any
ambiguous one, then anything available. -/
def chooseRestConstraint (uw : List Word) (forced : List Word) (w : Word)
    (randomize : Bool) (σ : Rng) : Option DGAConstraint × Rng :=
  if !(uniqueOf uw w).isEmpty then chooseFrom (uniqueOf uw w) randomize σ
  else if !(preferredAmbiguous uw forced w).isEmpty then
    chooseFrom (preferredAmbiguous uw forced w) randomize σ
  else if !(ambiguousOf uw w).isEmpty then chooseFrom (ambiguousOf uw w) randomize σ
  else chooseFrom (wordConstraints uw w) randomize σ

/-- The loop of attemptBuild over the remaining (possibly shuffled) words. -/
def pickRestLoop (uw : List Word) (forced : List Word) (randomize : Bool) :
    List Word → List (Word × DGAConstraint) → Rng →
    Option (List (Word × DGAConstraint)) × Rng
  | [], sel, σ => (some sel, σ)
  | w :: rest, sel, σ =>
    if w ∈ sel.map Prod.fst then pickRestLoop uw forced randomize rest sel σ
    else
      match chooseRestConstraint uw forced w randomize σ with
      | (none, σ2) => (none, σ2)
      | (some c, σ2) => pickRestLoop uw forced randomize rest (sel ++ [(w, c)]) σ2

/-- One scan of the remaining constraints for one whose matching set
restricted to the remaining words is a singleton; returns the split of
the constraint list around the firing constraint and the solved word. -/
def findFire (m : α → Word → Bool) :
    List α → List Word → Option (List α × α × List α × Word)
  | [], _ => none
  | c :: rest, ws =>
    match ws.filter (m c) with
    | [w] => some ([], c, rest, w)
    | _ =>
      match findFire m rest ws with
      | some (pre, c2, post, w) => some (c :: pre, c2, post, w)
      | none => none

/-- The elimination simulation loop of validateSolvability: fuelled by the
initial word count, which bounds the iterations of the source loop. -/
def runElim (m : α → Word → Bool) : Nat → List α → List Word → Bool
  | _, _, [] => true
  | 0, _, _ => false
  | fuel + 1, cs, ws =>
    match findFire m cs ws with
    | none => false
    | some (pre, _, post, w) =>
      runElim m fuel (pre ++ post) (ws.filter (fun x => decide (x ≠ w)))

/-- DGAGenerator.validateSolvability. -/
def validateSolvability (cs : List DGAConstraint) (allWords : List Word) : Bool :=
  runElim matchesB allWords.length cs allWords

/-- attemptBuild of the source; returns the selection as an association
list from word to its selected constraint. -/
def attemptBuild (uw : List Word) (forced : List Word) (requiredAmbiguous : Nat)
    (randomize : Bool) (σ : Rng) : Option (List (Word × DGAConstraint)) × Rng :=
  match pickForcedLoop uw forced randomize forced [] σ with
  | (none, σ1) => (none, σ1)
  | (some sel1, σ1) =>
    match
      (if randomize then
        match fisherYates uw σ1 with
        | (ws, σs) => pickRestLoop uw forced randomize ws sel1 σs
      else pickRestLoop uw forced randomize uw sel1 σ1) with
    | (none, σ2) => (none, σ2)
    | (some sel, σ2) =>
      if sel.length ≠ uw.length then (none, σ2)
      else if (sel.filter (fun kc => decide (2 ≤ kc.2.overlapScore))).length <
          min requiredAmbiguous forced.length then (none, σ2)
      else if validateSolvability (sel.map Prod.snd) uw then (some sel, σ2)
      else (none, σ2)

/-- An output clue of the DGA (interface DGAClue). -/
structure DGAClue where
  id : Nat
  word : Word
  displayText : String
  anchorChar : Char
  shortLeadingSlots : Nat
  shortTrailingSlots : Nat
  infiniteSide : Side
  infiniteSlotCount : Nat
  isAmbiguous : Bool
  matchingWords : List Word
deriving DecidableEq, Repr

/-- The clue record built for a selected constraint. -/
def formatClue (uw : List Word) (c : DGAConstraint) : DGAClue :=
  { id := 0
    word := c.targetWord
    displayText := c.visual.display
    anchorChar := c.visual.anchorChar
    shortLeadingSlots := c.visual.shortLeadingSlots
    shortTrailingSlots := c.visual.shortTrailingSlots
    infiniteSide := c.visual.infiniteSide
    infiniteSlotCount := c.visual.infiniteSlotCount
    isAmbiguous := decide (1 < c.overlapScore)
    matchingWords := sortB lexLe (uw.filter (fun w => matchesB c w)) }

/-- Sequential id assignment after the output shuffle. -/
def assignIdsFrom (n : Nat) : List DGAClue → List DGAClue
  | [] => []
  | q :: l => { q with id := n } :: assignIdsFrom (n + 1) l

/-- The result record of DGAGenerator.generate (interface DGAResult). -/
structure DGAResult where
  clues : List DGAClue
  wordBank : List Word
  success : Bool
  message : Option String
deriving DecidableEq, Repr

/-- Formatting of a successful selection: map to clue records, shuffle,
assign ids 1..N, and sort the word bank. -/
def formatResult (uw : List Word) (sel : List DGAConstraint) (σ : Rng) :
    DGAResult :=
  let clues0 := sel.map (formatClue uw)
  let sh := fisherYates clues0 σ
  { clues := assignIdsFrom 1 sh.1
    wordBank := sortB lexLe uw
    success := true
    message := none }

/-- The randomized generator loop (quota system, MAX_ATTEMPTS bound). -/
def attemptLoop (uw : List Word) (ambComps : List (List Word)) (target : Nat) :
    Nat → Rng → Option (List (Word × DGAConstraint)) × Rng
  | 0, σ => (none, σ)
  | n + 1, σ =>
    match computeForcedAmbiguousSet ambComps target true σ with
    | (forced, σ1) =>
      match attemptBuild uw forced target true σ1 with
      | (some sel, σ2) => (some sel, σ2)
      | (none, σ2) => attemptLoop uw ambComps target n σ2

/-- The deterministic fallback: the required ambiguous count is lowered
stepwise from the target down to 0. -/
def fallbackLoop (uw : List Word) (ambComps : List (List Word)) :
    Nat → Rng → Option (List (Word × DGAConstraint)) × Rng
  | 0, σ =>
    match computeForcedAmbiguousSet ambComps 0 false σ with
    | (forced, σ1) => attemptBuild uw forced 0 false σ1
  | r + 1, σ =>
    match computeForcedAmbiguousSet ambComps (r + 1) false σ with
    | (forced, σ1) =>
      match attemptBuild uw forced (r + 1) false σ1 with
      | (some sel, σ2) => (some sel, σ2)
      | (none, σ2) => fallbackLoop uw ambComps r σ2

/-- Whitespace stripped by the JS trim applied to word inputs. -/
def isJsSpace (c : Char) : Bool :=
  c == ' ' || c == '\t' || c == '\n' || c == '\r'

/-- JS String.prototype.trim on a character list. -/
def trimChars (l : List Char) : List Char :=
  ((l.dropWhile isJsSpace).reverse.dropWhile isJsSpace).reverse

/-- The sanitization w.toUpperCase().trim() applied to every input word. -/
def sanitizeWord (w : Word) : Word := trimChars (w.map Char.toUpper)

/-- The pool retained by DGAGenerator.generate: the sanitized unique words,
cut to a random subset of the requested size when they exceed it.  The
random-comparator sort of the source produces an implementation-defined,
draw-dependent permutation; it is modelled by the Fisher-Yates model. -/
def dgaPool (wordList : List Word) (limit : Nat) (σ : Rng) : List Word × Rng :=
  if limit < (dedupFirst ((wordList.map sanitizeWord).filter
      (fun w => decide (w ≠ [])))).length then
    match fisherYates (dedupFirst ((wordList.map sanitizeWord).filter
        (fun w => decide (w ≠ [])))) σ with
    | (sh, σ2) => (sh.take limit, σ2)
  else
    (dedupFirst ((wordList.map sanitizeWord).filter (fun w => decide (w ≠ []))), σ)

/-- The body of DGAGenerator.generate once the pool has been fixed. -/
def dgaGenerateCore (uw : List Word) (σ : Rng) : DGAResult :=
  if uw.length < 6 then
    { clues := [], wordBank := uw, success := false,
      message := some "Please provide at least 6 words." }
  else
    match attemptLoop uw (ambiguousComponents uw)
        (min 3 (((ambiguousComponents uw).map (fun c => c.length - 1)).sum))
        500 σ with
    | (some sel, σ2) => formatResult uw (sel.map Prod.snd) σ2
    | (none, σ2) =>
      match fallbackLoop uw (ambiguousComponents uw)
          (min 3 (((ambiguousComponents uw).map (fun c => c.length - 1)).sum))
          σ2 with
      | (some sel, σ3) => formatResult uw (sel.map Prod.snd) σ3
      | (none, _) =>
        { clues := [], wordBank := uw, success := false,
          message := some "Could not generate a deductive path for the selected subset. Try regenerating to pick a different set of words." }

/-- DGAGenerator.generate. -/
def dgaGenerate (wordList : List Word) (limit : Nat) (σ : Rng) : DGAResult :=
  match dgaPool wordList limit σ with
  | (uw, σ0) => dgaGenerateCore uw σ0

/-! ### The elimination procedure as a relation -/

/-- The elimination procedure over clue-like items: repeatedly some item
whose matching set restricted to the still-unresolved words is exactly one
word fires, and that word and item are removed, until no words remain. -/
inductive Eliminates (m : α → Word → Bool) : List α → List Word → Prop
  | done (cs : List α) : Eliminates m cs []
  | step (cs₁ cs₂ : List α) (c : α) (ws : List Word) (w : Word)
      (hfire : ws.filter (m c) = [w])
      (hrest : Eliminates m (cs₁ ++ cs₂) (ws.filter (fun x => decide (x ≠ w)))) :
      Eliminates m (cs₁ ++ c :: cs₂) ws

/-- A six-word sample input with no letter overlap (all constraints have
overlap score 1). -/
def sampleSixWords : List Word :=
  ["ABC".toList, "DEF".toList, "GHI".toList, "JKL".toList, "MNO".toList,
   "PQR".toList]

/-- A six-word input of twin pairs sharing first and last letters; every
available constraint matches exactly two pool words. -/
def twinSixWords : List Word :=
  ["CAT".toList, "CUT".toList, "DOG".toList, "DIG".toList, "PEN".toList,
   "PAN".toList]

/-! ### Crossword placement engine (CrosswordGenerator) -/

/-- Placement direction. -/
inductive Direction
  | across | down
deriving DecidableEq, Repr

/-- A raw crossword input (interface WordInput). -/
structure WordInput where
  word : Word
  clue : Word
deriving DecidableEq, Repr

/-- A placed crossword word (interface PlacedWord). -/
structure PlacedWord where
  word : Word
  clue : Word
  row : Int
  col : Int
  direction : Direction
  number : Nat
deriving DecidableEq, Repr

/-- The in-progress letter grid (the (string or null) 2D array), as a
total function with none for empty; every source access is guarded by the
bounds check, which the embedding keeps. -/
def WorkGrid : Type := Int → Int → Option Char

/-- The freshly reset grid. -/
def emptyWorkGrid : WorkGrid := fun _ _ => none

/-- CrosswordGenerator.isValid. -/
def isValidCell (size : Nat) (r c : Int) : Bool :=
  decide (0 ≤ r) && decide (r < (size : Int)) &&
  decide (0 ≤ c) && decide (c < (size : Int))

/-- CrosswordGenerator.isEmpty. -/
def isEmptyCell (g : WorkGrid) (size : Nat) (r c : Int) : Bool :=
  isValidCell size r c && decide (g r c = none)

/-- Row of the i-th cell of a word at (row, col) in a direction. -/
def cellRow (row : Int) (dir : Direction) (i : Nat) : Int :=
  match dir with
  | .across => row
  | .down => row + i

/-- Column of the i-th cell of a word at (row, col) in a direction. -/
def cellCol (col : Int) (dir : Direction) (i : Nat) : Int :=
  match dir with
  | .across => col + i
  | .down => col

/-- The per-cell test of canPlaceWord: in bounds, and either an empty cell
with empty perpendicular neighbours or a matching already-filled cell. -/
def cellCheck (g : WorkGrid) (size : Nat) (word : Word) (row col : Int)
    (dir : Direction) (i : Nat) : Bool :=
  if !isValidCell size (cellRow row dir i) (cellCol col dir i) then false
  else
    match g (cellRow row dir i) (cellCol col dir i) with
    | none =>
      match dir with
      | .across =>
        !((isValidCell size (cellRow row dir i - 1) (cellCol col dir i) &&
            !isEmptyCell g size (cellRow row dir i - 1) (cellCol col dir i)) ||
          (isValidCell size (cellRow row dir i + 1) (cellCol col dir i) &&
            !isEmptyCell g size (cellRow row dir i + 1) (cellCol col dir i)))
      | .down =>
        !((isValidCell size (cellRow row dir i) (cellCol col dir i - 1) &&
            !isEmptyCell g size (cellRow row dir i) (cellCol col dir i - 1)) ||
          (isValidCell size (cellRow row dir i) (cellCol col dir i + 1) &&
            !isEmptyCell g size (cellRow row dir i) (cellCol col dir i + 1)))
    | some ch => decide (word.get? i = some ch)

/-- CrosswordGenerator.canPlaceWord. -/
def canPlaceWord (g : WorkGrid) (size : Nat) (word : Word) (row col : Int)
    (dir : Direction) : Bool :=
  if decide (row < 0) || decide ((size : Int) ≤ row) ||
      decide (col < 0) || decide ((size : Int) ≤ col) then false
  else
    (match dir with
     | .across =>
        decide (col + word.length ≤ (size : Int)) &&
        !(isValidCell size row (col - 1) && !isEmptyCell g size row (col - 1)) &&
        !(isValidCell size row (col + word.length) &&
          !isEmptyCell g size row (col + word.length))
     | .down =>
        decide (row + word.length ≤ (size : Int)) &&
        !(isValidCell size (row - 1) col && !isEmptyCell g size (row - 1) col) &&
        !(isValidCell size (row + word.length) col &&
          !isEmptyCell g size (row + word.length) col)) &&
    (List.range word.length).all (cellCheck g size word row col dir)

/-- Writing one character into the working grid. -/
def setCell (g : WorkGrid) (r c : Int) (ch : Char) : WorkGrid :=
  fun r' c' => if r' = r ∧ c' = c then some ch else g r' c'

/-- CrosswordGenerator.placeWord, cell by cell. -/
def placeWordOn (g : WorkGrid) : Word → Int → Int → Direction → WorkGrid
  | [], _, _, _ => g
  | ch :: rest, r, c, dir =>
    placeWordOn (setCell g r c ch) rest (cellRow r dir 1) (cellCol c dir 1) dir

/-- The perpendicular direction tried for an intersection. -/
def tryDirOf (pw : PlacedWord) : Direction :=
  match pw.direction with
  | .across => .down
  | .down => .across

/-- The row tried for an intersection at the j-th cell of the placed word
with the k-th character of the current word. -/
def tryRowOf (pw : PlacedWord) (j k : Nat) : Int :=
  if tryDirOf pw = Direction.down then cellRow pw.row pw.direction j - k
  else cellRow pw.row pw.direction j

/-- The column tried for an intersection. -/
def tryColOf (pw : PlacedWord) (j k : Nat) : Int :=
  if tryDirOf pw = Direction.across then cellCol pw.col pw.direction j - k
  else cellCol pw.col pw.direction j

/-- The candidate placement of the scanning loop at one index pair: j-th
cell of the placed word, k-th character of the current word. -/
def tryPlaceAt (g : WorkGrid) (size : Nat) (cur : Word) (pw : PlacedWord)
    (j k : Nat) : Option (Int × Int × Direction) :=
  match pw.word.get? j, cur.get? k with
  | some pc, some cc =>
    if cc = pc then
      if canPlaceWord g size cur (tryRowOf pw j k) (tryColOf pw j k)
          (tryDirOf pw) then
        some (tryRowOf pw j k, tryColOf pw j k, tryDirOf pw)
      else none
    else none
  | _, _ => none

/-- The scan of one placed word for the first valid intersection. -/
def tryPlaceWord (g : WorkGrid) (size : Nat) (cur : Word) (pw : PlacedWord) :
    Option (Int × Int × Direction) :=
  (List.range pw.word.length).findSome? (fun j =>
    (List.range cur.length).findSome? (fun k => tryPlaceAt g size cur pw j k))

/-- The scan of all placed words left to right for the first fit. -/
def tryPlace (g : WorkGrid) (size : Nat) (cur : Word) :
    List PlacedWord → Option (Int × Int × Direction)
  | [] => none
  | pw :: rest =>
    match tryPlaceWord g size cur pw with
    | some t => some t
    | none => tryPlace g size cur rest

/-- The placement loop over the remaining sorted words. -/
def placeLoop (size : Nat) :
    List WordInput → WorkGrid → List PlacedWord → List Word →
    WorkGrid × List PlacedWord × List Word
  | [], g, placed, unused => (g, placed, unused)
  | cur :: rest, g, placed, unused =>
    match tryPlace g size cur.word placed with
    | some (r, c, d) =>
      placeLoop size rest (placeWordOn g cur.word r c d)
        (placed ++ [{ word := cur.word, clue := cur.clue, row := r, col := c, direction := d, number := 0 }])
        unused
    | none => placeLoop size rest g placed (unused ++ [cur.word])

/-- Row-major comparison of start cells (first by row, then by column). -/
def rowMajorLE (a b : Int × Int) : Bool :=
  decide (a.1 < b.1) || (decide (a.1 = b.1) && decide (a.2 ≤ b.2))

/-- Strict row-major order on start cells. -/
def RowMajorLT (a b : Int × Int) : Prop :=
  a.1 < b.1 ∨ (a.1 = b.1 ∧ a.2 < b.2)

/-- Enumeration of the distinct start cells from a counter. -/
def indexedFrom : Nat → List (Int × Int) → List ((Int × Int) × Nat)
  | _, [] => []
  | n, p :: rest => (p, n) :: indexedFrom (n + 1) rest

/-- The first-occurrence numbering fold over the sorted start cells. -/
def numFold : List (Int × Int) → List ((Int × Int) × Nat) → Nat →
    List ((Int × Int) × Nat)
  | [], acc, _ => acc
  | p :: rest, acc, ctr =>
    if p ∈ acc.map Prod.fst then numFold rest acc ctr
    else numFold rest (acc ++ [(p, ctr)]) (ctr + 1)

/-- The clue-number map of the post-processing step. -/
def buildNumMap (placed : List PlacedWord) : List ((Int × Int) × Nat) :=
  numFold (sortB rowMajorLE (placed.map (fun w => (w.row, w.col)))) [] 1

/-- Lookup in the number map. -/
def assocFind : List ((Int × Int) × Nat) → (Int × Int) → Option Nat
  | [], _ => none
  | (q, n) :: rest, p => if p = q then some n else assocFind rest p

/-- An output grid cell (interface Cell). -/
structure GridCell where
  char : Option Char
  isActive : Bool
  number : Option Nat
deriving DecidableEq, Repr

/-- The result record of CrosswordGenerator.generate. -/
structure GenerationResult where
  grid : List (List GridCell)
  placedWords : List PlacedWord
  unusedWords : List Word
  gridSize : Nat
deriving DecidableEq, Repr

/-- The all-inactive grid of the failure and empty-input paths. -/
def emptyGrid (size : Nat) : List (List GridCell) :=
  (List.range size).map (fun _ => (List.range size).map
    (fun _ => { char := none, isActive := false, number := none }))

/-- The output grid built from the working grid and the number map. -/
def buildFinalGrid (size : Nat) (g : WorkGrid)
    (nums : List ((Int × Int) × Nat)) : List (List GridCell) :=
  (List.range size).map (fun (r : Nat) =>
    (List.range size).map (fun (c : Nat) =>
      { char := g ((r : Nat) : Int) ((c : Nat) : Int)
        isActive := (g ((r : Nat) : Int) ((c : Nat) : Int)).isSome
        number := assocFind nums (((r : Nat) : Int), ((c : Nat) : Int)) }))

/-- The centered anchor start row. -/
def startRowOf (size : Nat) : Int := ((size - 1) / 2 : Nat)

/-- The centered anchor start column. -/
def startColOf (size : Nat) (len : Nat) : Int := ((size : Int) - len) / 2

/-- Anchor placement followed by the loop over the remaining words. -/
def crosswordPlaceAll (size : Nat) (anchor : WordInput)
    (restSorted : List WordInput) : WorkGrid × List PlacedWord × List Word :=
  if canPlaceWord emptyWorkGrid size anchor.word (startRowOf size)
      (startColOf size anchor.word.length) Direction.across then
    placeLoop size restSorted
      (placeWordOn emptyWorkGrid anchor.word (startRowOf size)
        (startColOf size anchor.word.length) Direction.across)
      [{ word := anchor.word, clue := anchor.clue, row := startRowOf size, col := startColOf size anchor.word.length, direction := Direction.across, number := 0 }]
      []
  else placeLoop size restSorted emptyWorkGrid [] [anchor.word]

/-- The post-processing of the placement state into the result record. -/
def crosswordFinish (size : Nat) (t : WorkGrid × List PlacedWord × List Word) :
    GenerationResult :=
  { grid := buildFinalGrid size t.1 (buildNumMap t.2.1)
    placedWords := t.2.1.map (fun w =>
      { w with number := (assocFind (buildNumMap t.2.1) (w.row, w.col)).getD 0 })
    unusedWords := t.2.2
    gridSize := size }

/-- CrosswordGenerator.generate. -/
def crosswordGenerate (size : Nat) (inputs : List WordInput) (σ : Rng) :
    GenerationResult :=
  if inputs.length = 0 then
    { grid := emptyGrid size, placedWords := [], unusedWords := [],
      gridSize := size }
  else
    match randBelow σ inputs.length with
    | (ri, _) =>
      if size < (inputs.getD ri { word := [], clue := [] }).word.length then
        { grid := emptyGrid size
          placedWords := []
          unusedWords := ((inputs.getD ri { word := [], clue := [] }) ::
            sortB (fun a b => b.word.length ≤ a.word.length)
              (inputs.eraseIdx ri)).map (fun w => w.word)
          gridSize := size }
      else
        crosswordFinish size
          (crosswordPlaceAll size (inputs.getD ri { word := [], clue := [] })
            (sortB (fun a b => b.word.length ≤ a.word.length)
              (inputs.eraseIdx ri)))

/-- Lookup of an output grid cell by signed coordinates. -/
def gridCellAt (grid : List (List GridCell)) (r c : Int) : Option GridCell :=
  if 0 ≤ r ∧ 0 ≤ c then (grid.get? r.toNat).bind (fun rw => rw.get? c.toNat)
  else none

/-- The grid-character invariant: every placed word sees its own
characters on the working grid, within bounds. -/
def GridInv (size : Nat) (g : WorkGrid) (placed : List PlacedWord) : Prop :=
  ∀ pw ∈ placed, ∀ i, i < pw.word.length →
    isValidCell size (cellRow pw.row pw.direction i)
      (cellCol pw.col pw.direction i) = true ∧
    g (cellRow pw.row pw.direction i) (cellCol pw.col pw.direction i) =
      pw.word.get? i

/-- Sample crossword inputs used by the witnesses. -/
def sampleCwInputs : List WordInput :=
  [{ word := "APPLE".toList, clue := "c1".toList },
   { word := "PEAR".toList, clue := "c2".toList },
   { word := "GRAPE".toList, clue := "c3".toList }]

/-! ### Constraint board assembler (TicTacGenerator) -/

/-- A processed tic-tac word (interface ProcessedWord). -/
structure ProcessedWord where
  word : Word
  len : Nat
  start : Char
  endCh : Char
  pos : Option (List Char)
deriving DecidableEq, Repr

/-- The constraint kinds (type ConstraintKind); endK, posStart, posEnd,
posLength, startEnd, lengthStart and lengthEnd stand for the source names
end, pos_start, pos_end, pos_length, start_end, length_start, length_end. -/
inductive TTKind
  | length | start | endK | pos | posStart | posEnd | posLength | startEnd
  | lengthStart | lengthEnd
deriving DecidableEq, Repr

/-- The ambiguity bands. -/
inductive Band
  | high | medium | low
deriving DecidableEq, Repr

/-- Attribute tuple of a candidate (TicTacConstraintAttributes). -/
structure TTAttributes where
  length : Option Nat
  start : Option Char
  endCh : Option Char
  pos : Option (List Char)
deriving DecidableEq, Repr

/-- The four difficulty levels. -/
inductive TicTacDifficulty
  | easy | medium | hard
deriving DecidableEq, Repr

/-- Is the character an ASCII letter (the character class of the POS
regular expression with its case-insensitive flag). -/
def isAsciiLetter (c : Char) : Bool :=
  ('a' ≤ c && c ≤ 'z') || ('A' ≤ c && c ≤ 'Z')

/-- One greedy length attempted by the POS regular expression: k letters
followed by a period. -/
def posTryK (clue : List Char) (k : Nat) : Option (List Char) :=
  if (clue.take k).length = k && (clue.take k).all isAsciiLetter &&
      decide (clue.get? k = some '.') then
    some ((clue.take (k + 1)).map Char.toLower)
  else none

/-- TicTacGenerator.getPOS: the case-insensitive match of 1 to 4 letters
followed by a period at the start of the clue, lowercased (the regular
expression is greedy, longest length first). -/
def getPOS (clue : List Char) : Option (List Char) :=
  match posTryK clue 4 with
  | some t => some t
  | none =>
    match posTryK clue 3 with
    | some t => some t
    | none =>
      match posTryK clue 2 with
      | some t => some t
      | none => posTryK clue 1

/-- TicTacGenerator.processInput: clean, deduplicate by word, and attach
the POS tag extracted from the clue at the same raw index. -/
def processInputAux (clues : List (List Char)) :
    List Word → Nat → List Word → List ProcessedWord
  | [], _, _ => []
  | w :: rest, idx, seen =>
    if sanitizeWord w = [] ∨ sanitizeWord w ∈ seen then
      processInputAux clues rest (idx + 1) seen
    else
      { word := sanitizeWord w
        len := (sanitizeWord w).length
        start := (sanitizeWord w).headD '?'
        endCh := (sanitizeWord w).getLastD '?'
        pos := match clues.get? idx with
          | none => none
          | some cl => if cl = [] then none else getPOS cl } ::
      processInputAux clues rest (idx + 1) (sanitizeWord w :: seen)

/-- TicTacGenerator.processInput. -/
def processInput (words : List Word) (clues : List (List Char)) :
    List ProcessedWord :=
  processInputAux clues words 0 []

/-- The source name of a kind, used in bucket keys. -/
def kindName : TTKind → String
  | .length => "length"
  | .start => "start"
  | .endK => "end"
  | .pos => "pos"
  | .posStart => "pos_start"
  | .posEnd => "pos_end"
  | .posLength => "pos_length"
  | .startEnd => "start_end"
  | .lengthStart => "length_start"
  | .lengthEnd => "length_end"

/-- TicTacGenerator.buildKey. -/
def buildKey (kind : TTKind) (attrs : TTAttributes) : String :=
  String.intercalate "|" ([kindName kind] ++
    (match attrs.pos with
     | some p => ["pos=" ++ String.mk p]
     | none => []) ++
    (match attrs.length with
     | some n => ["len=" ++ toString n]
     | none => []) ++
    (match attrs.start with
     | some c => ["start=" ++ String.singleton c]
     | none => []) ++
    (match attrs.endCh with
     | some c => ["end=" ++ String.singleton c]
     | none => []))

/-- The visual placeholder of labels. -/
def ttPlaceholder : String := "_____"

/-- TicTacGenerator.buildLabel. -/
def buildLabel (kind : TTKind) (attrs : TTAttributes) : Option String :=
  match kind with
  | .length => attrs.length.map (fun n => toString n)
  | .start => attrs.start.map (fun c => String.singleton c ++ ttPlaceholder)
  | .endK => attrs.endCh.map (fun c => ttPlaceholder ++ String.singleton c)
  | .pos => attrs.pos.map String.mk
  | .posStart =>
    match attrs.pos, attrs.start with
    | some p, some c =>
      some (String.mk p ++ " | " ++ String.singleton c ++ ttPlaceholder)
    | _, _ => none
  | .posEnd =>
    match attrs.pos, attrs.endCh with
    | some p, some c =>
      some (String.mk p ++ " | " ++ ttPlaceholder ++ String.singleton c)
    | _, _ => none
  | .posLength =>
    match attrs.pos, attrs.length with
    | some p, some n => some (String.mk p ++ " | " ++ toString n)
    | _, _ => none
  | .startEnd =>
    match attrs.start, attrs.endCh with
    | some a, some b =>
      some (String.singleton a ++ ttPlaceholder ++ String.singleton b)
    | _, _ => none
  | .lengthStart =>
    match attrs.length, attrs.start with
    | some n, some c =>
      some (toString n ++ " | " ++ String.singleton c ++ ttPlaceholder)
    | _, _ => none
  | .lengthEnd =>
    match attrs.length, attrs.endCh with
    | some n, some c =>
      some (toString n ++ " | " ++ ttPlaceholder ++ String.singleton c)
    | _, _ => none

/-- A bucket accumulator (interface ConstraintAccumulator). -/
structure TTAccum where
  key : String
  label : String
  attributes : TTAttributes
  kind : TTKind
  words : List Word
deriving DecidableEq, Repr

/-- TicTacGenerator.buildConstraintCandidates ensureBucket. -/
def ensureBucket (buckets : List TTAccum) (kind : TTKind)
    (attrs : TTAttributes) (w : Word) : List TTAccum :=
  match buildLabel kind attrs with
  | none => buckets
  | some label =>
    if buckets.any (fun b => b.key == buildKey kind attrs) then
      buckets.map (fun b =>
        if b.key = buildKey kind attrs then
          { b with words := if w ∈ b.words then b.words else b.words ++ [w] }
        else b)
    else
      buckets ++ [{ key := buildKey kind attrs, label := label, attributes := attrs, kind := kind, words := [w] }]

/-- The bucket updates contributed by one processed word, in source order. -/
def wordBucketsStep (buckets : List TTAccum) (pw : ProcessedWord) :
    List TTAccum :=
  let b1 := ensureBucket buckets .length
    { length := some pw.len, start := none, endCh := none, pos := none } pw.word
  let b2 := ensureBucket b1 .start
    { length := none, start := some pw.start, endCh := none, pos := none } pw.word
  let b3 := ensureBucket b2 .endK
    { length := none, start := none, endCh := some pw.endCh, pos := none } pw.word
  let b4 := ensureBucket b3 .lengthStart
    { length := some pw.len, start := some pw.start, endCh := none, pos := none } pw.word
  let b5 := ensureBucket b4 .lengthEnd
    { length := some pw.len, start := none, endCh := some pw.endCh, pos := none } pw.word
  let b6 := ensureBucket b5 .startEnd
    { length := none, start := some pw.start, endCh := some pw.endCh, pos := none } pw.word
  match pw.pos with
  | none => b6
  | some p =>
    let b7 := ensureBucket b6 .pos
      { length := none, start := none, endCh := none, pos := some p } pw.word
    let b8 := ensureBucket b7 .posStart
      { length := none, start := some pw.start, endCh := none, pos := some p } pw.word
    let b9 := ensureBucket b8 .posEnd
      { length := none, start := none, endCh := some pw.endCh, pos := some p } pw.word
    ensureBucket b9 .posLength
      { length := some pw.len, start := none, endCh := none, pos := some p } pw.word

/-- The bucket-building fold over the processed words. -/
def buildBuckets : List ProcessedWord → List TTAccum → List TTAccum
  | [], acc => acc
  | pw :: rest, acc => buildBuckets rest (wordBucketsStep acc pw)

/-- A constraint candidate (interface ConstraintCandidate). -/
structure TTCandidate where
  key : String
  label : String
  attributes : TTAttributes
  kind : TTKind
  matchingWords : List Word
  ambiguity : Nat
  band : Band
deriving DecidableEq, Repr

/-- TicTacGenerator.classifyAmbiguity. -/
def classifyAmbiguity (count : Nat) : Band :=
  if 4 ≤ count then .high
  else if 2 ≤ count then .medium
  else .low

/-- TicTacGenerator.buildConstraintCandidates. -/
def buildConstraintCandidates (pws : List ProcessedWord) : List TTCandidate :=
  (buildBuckets pws []).map (fun b =>
    { key := b.key, label := b.label, attributes := b.attributes,
      kind := b.kind, matchingWords := sortB lexLe b.words,
      ambiguity := (sortB lexLe b.words).length,
      band := classifyAmbiguity (sortB lexLe b.words).length })

/-- A difficulty profile (interface DifficultyProfile). -/
structure DifficultyProfile where
  allowedKinds : List TTKind
  defaultKindCap : Nat
  perKindCap : List (TTKind × Nat)
  bandWeights : Band → Nat

/-- DIFFICULTY_PROFILES. -/
def profileOf : TicTacDifficulty → DifficultyProfile
  | .easy =>
    { allowedKinds := [.length, .start, .endK]
      defaultKindCap := 4
      perKindCap := [(.length, 5)]
      bandWeights := fun b => match b with
        | .high => 4
        | .medium => 2
        | .low => 1 }
  | .medium =>
    { allowedKinds := [.length, .start, .endK, .pos, .posStart, .posEnd,
        .lengthStart, .lengthEnd]
      defaultKindCap := 3
      perKindCap := [(.pos, 4)]
      bandWeights := fun b => match b with
        | .high => 3
        | .medium => 4
        | .low => 2 }
  | .hard =>
    { allowedKinds := [.length, .start, .endK, .pos, .posStart, .posEnd,
        .posLength, .startEnd, .lengthStart, .lengthEnd]
      defaultKindCap := 3
      perKindCap := [(.pos, 4), (.startEnd, 4)]
      bandWeights := fun b => match b with
        | .high => 1
        | .medium => 3
        | .low => 5 }

/-- The weight of one candidate at one selection attempt, including its
random jitter draw.  The source float weight ambiguity*100 +
bandWeight*60*max(0.1, 1 - attempt/120) + random() is modelled at scale
1228800 with the random unit draw replaced by a 10-bit fraction; the
scaling is strictly monotone, so the sorted order is preserved. -/
def weightCandidates (profile : DifficultyProfile) (t : Nat) :
    List TTCandidate → Rng → List (TTCandidate × Nat) × Rng
  | [], σ => ([], σ)
  | c :: rest, σ =>
    match drawNat σ with
    | (r, σ1) =>
      match weightCandidates profile t rest σ1 with
      | (tail, σ2) =>
        ((c, c.ambiguity * 122880000 +
          profile.bandWeights c.band * 60 * max 122880 ((120 - t) * 10240) +
          (r % 1024) * 1200) :: tail, σ2)

/-- The greedy selection loop of pickConstraintSet. -/
def pickLoop (profile : DifficultyProfile) (boost : Nat)
    (selectionAttempt : Nat) :
    List TTCandidate → List TTCandidate → List Word → List TTCandidate
  | [], pick, _ => pick
  | c :: rest, pick, coverage =>
    if 9 ≤ pick.length then pick
    else if pick.any (fun sel => sel.key == c.key) then
      pickLoop profile boost selectionAttempt rest pick coverage
    else if ((profile.perKindCap.lookup c.kind).getD profile.defaultKindCap +
          boost ≤ (pick.filter (fun sel => sel.kind == c.kind)).length) ∧
        pick.length < 9 then
      pickLoop profile boost selectionAttempt rest pick coverage
    else if (!c.matchingWords.any (fun w => decide (w ∉ coverage))) ∧
        pick.length < 6 ∧ selectionAttempt < 40 then
      pickLoop profile boost selectionAttempt rest pick coverage
    else
      pickLoop profile boost selectionAttempt rest (pick ++ [c])
        (coverage ++ c.matchingWords)

/-- The key-respecting fill loop of pickConstraintSet. -/
def fillLoop : List TTCandidate → List TTCandidate → List TTCandidate
  | [], pick => pick
  | c :: rest, pick =>
    if 9 ≤ pick.length then pick
    else if pick.any (fun sel => sel.key == c.key) then fillLoop rest pick
    else fillLoop rest (pick ++ [c])

/-- TicTacGenerator.pickConstraintSet. -/
def pickConstraintSet (candidates : List TTCandidate)
    (profile : DifficultyProfile) (selectionAttempt : Nat) (σ : Rng) :
    Option (List TTCandidate) × Rng :=
  if candidates.length < 9 then (none, σ)
  else
    match weightCandidates profile selectionAttempt candidates σ with
    | (weighted, σ1) =>
      if 9 ≤ (fillLoop ((sortB (fun a b => b.2 ≤ a.2) weighted).map Prod.fst)
          (pickLoop profile (min 3 (selectionAttempt / 25)) selectionAttempt
            ((sortB (fun a b => b.2 ≤ a.2) weighted).map Prod.fst) [] [])).length
      then
        (some ((fillLoop ((sortB (fun a b => b.2 ≤ a.2) weighted).map Prod.fst)
          (pickLoop profile (min 3 (selectionAttempt / 25)) selectionAttempt
            ((sortB (fun a b => b.2 ≤ a.2) weighted).map Prod.fst) [] [])).take 9),
          σ1)
      else (none, σ1)

/-- The option loop of one backtracking node (findDistinctAssignment
backtrack): the continuation assigning the remaining candidates is passed
in as a function. -/
def btTryWith (next : List Word → Rng → Option (List (String × Word)) × Rng)
    (key : String) (used : List Word) :
    List Word → Rng → Option (List (String × Word)) × Rng
  | [], σ => (none, σ)
  | w :: ws, σ =>
    if w ∈ used then btTryWith next key used ws σ
    else
      match next (used ++ [w]) σ with
      | (some asgn, σ2) => (some ((key, w) :: asgn), σ2)
      | (none, σ2) => btTryWith next key used ws σ2

/-- The backtracking assignment search (findDistinctAssignment backtrack):
each node shuffles its live options and tries them in order, recursing into
the remaining candidates. -/
def btAssign : List (TTCandidate × List Word) → List Word → Rng →
    Option (List (String × Word)) × Rng
  | [], _, σ => (some [], σ)
  | (c, opts) :: rest, used, σ =>
    match fisherYates opts σ with
    | (sh, σ1) => btTryWith (btAssign rest) c.key used sh σ1

/-- TicTacGenerator.findDistinctAssignment: candidates ordered by
ascending live option count, then backtracking. -/
def findDistinctAssignment (candidates : List TTCandidate)
    (availableWords : List Word) (σ : Rng) :
    Option (List (String × Word)) × Rng :=
  if (sortB (fun a b => a.2.length ≤ b.2.length)
      (candidates.map (fun c =>
        (c, c.matchingWords.filter (fun w => decide (w ∈ availableWords)))))).any
      (fun e => e.2.isEmpty) then
    (none, σ)
  else
    btAssign (sortB (fun a b => a.2.length ≤ b.2.length)
      (candidates.map (fun c =>
        (c, c.matchingWords.filter (fun w => decide (w ∈ availableWords))))))
      [] σ

/-- A materialized cell (interface TicTacCell). -/
structure TTCell where
  key : String
  label : String
  attributes : TTAttributes
  kind : TTKind
  ambiguity : Nat
  matchingWords : List Word
deriving DecidableEq, Repr

/-- Lookup of the assigned word of a candidate key. -/
def lookupAssign : List (String × Word) → String → Option Word
  | [], _ => none
  | (k, w) :: rest, key => if key = k then some w else lookupAssign rest key

/-- TicTacGenerator.materializeCells: the assigned word is moved to the
front of the sorted matching list. -/
def materializeCells (candidates : List TTCandidate)
    (asgn : List (String × Word)) : List TTCell :=
  candidates.map (fun c =>
    { key := c.key, label := c.label, attributes := c.attributes,
      kind := c.kind, ambiguity := c.ambiguity
      matchingWords :=
        match lookupAssign asgn c.key with
        | some w =>
          w :: (sortB lexLe c.matchingWords).filter (fun x => decide (x ≠ w))
        | none => sortB lexLe c.matchingWords })

/-- A 3x3 board (interface TicTacGrid). -/
structure TicTacGrid where
  id : Nat
  cells : List TTCell
deriving DecidableEq, Repr

/-- TicTacGenerator.enforceEasyCenter. -/
def enforceEasyCenter (cells : List TTCell) (pool : List ProcessedWord) :
    List TTCell :=
  if cells.length < 9 then cells
  else
    match cells.findIdx? (fun cell =>
      decide (cell.attributes.length = some ((pool.map (fun p => p.len)).foldr max 0))) with
    | none => cells
    | some idx => if idx = 4 then cells else listSwap cells 4 idx

/-- The attempt loop of TicTacGenerator.generateGrid (the attempt number
counts up from 0 while the fuel counts down from 50). -/
def gridAttemptLoop (pool : List ProcessedWord) (difficulty : TicTacDifficulty)
    (candidates : List TTCandidate) (availableWords : List Word) (id : Nat) :
    Nat → Rng → Option TicTacGrid × Rng
  | 0, σ => (none, σ)
  | n + 1, σ =>
    match pickConstraintSet candidates (profileOf difficulty)
        ((50 - (n + 1)) % 120) σ with
    | (none, σ1) => gridAttemptLoop pool difficulty candidates availableWords id n σ1
    | (some selection, σ1) =>
      if selection.length < 9 then
        gridAttemptLoop pool difficulty candidates availableWords id n σ1
      else
        match findDistinctAssignment selection availableWords σ1 with
        | (none, σ2) =>
          gridAttemptLoop pool difficulty candidates availableWords id n σ2
        | (some asgn, σ2) =>
          match fisherYates (materializeCells selection asgn) σ2 with
          | (cells1, σ3) =>
            (some { id := id
                    cells := if difficulty = .easy then
                      enforceEasyCenter cells1 pool else cells1 }, σ3)

/-- TicTacGenerator.generateGrid. -/
def generateGrid (id : Nat) (pool : List ProcessedWord)
    (difficulty : TicTacDifficulty) (σ : Rng) : Option TicTacGrid × Rng :=
  if ((buildConstraintCandidates pool).filter (fun c =>
      decide (c.kind ∈ (profileOf difficulty).allowedKinds))).length < 9 then
    (none, σ)
  else
    gridAttemptLoop pool difficulty
      ((buildConstraintCandidates pool).filter (fun c =>
        decide (c.kind ∈ (profileOf difficulty).allowedKinds)))
      (pool.map (fun p => p.word)) id 50 σ

/-- The result record of TicTacGenerator.generate (TicTacResult). -/
structure TicTacResult where
  grids : List TicTacGrid
  success : Bool
  difficulty : TicTacDifficulty
deriving DecidableEq, Repr

/-- The loop generating the four independent boards; any failure aborts. -/
def gridsLoop (pool : List ProcessedWord) (difficulty : TicTacDifficulty) :
    Nat → Nat → Rng → Option (List TicTacGrid) × Rng
  | 0, _, σ => (some [], σ)
  | n + 1, i, σ =>
    match generateGrid i pool difficulty σ with
    | (none, σ1) => (none, σ1)
    | (some g, σ1) =>
      match gridsLoop pool difficulty n (i + 1) σ1 with
      | (some gs, σ2) => (some (g :: gs), σ2)
      | (none, σ2) => (none, σ2)

/-- TicTacGenerator.generate. -/
def ticTacGenerate (wordList : List Word) (clueList : List (List Char))
    (difficulty : TicTacDifficulty) (σ : Rng) : TicTacResult :=
  if (processInput wordList clueList).length < 9 then
    { grids := [], success := false, difficulty := difficulty }
  else
    match gridsLoop (processInput wordList clueList) difficulty 4 0 σ with
    | (some gs, _) => { grids := gs, success := true, difficulty := difficulty }
    | (none, _) => { grids := [], success := false, difficulty := difficulty }

/-- The invariant relation tying one backtracking node to its produced
assignment entry: the entry records that node key and one of its options. -/
def btR (e : TTCandidate × List Word) (p : String × Word) : Prop :=
  p.1 = e.1.key ∧ p.2 ∈ e.2

/-- The normalized (word, optional POS tag) pair stream of the raw input:
empty cleaned words are dropped, duplicates kept. -/
def rawPairsAux (clues : List (List Char)) :
    List Word → Nat → List (Word × Option (List Char))
  | [], _ => []
  | w :: rest, idx =>
    if sanitizeWord w = [] then rawPairsAux clues rest (idx + 1)
    else (sanitizeWord w,
      match clues.get? idx with
      | none => none
      | some cl => if cl = [] then none else getPOS cl) ::
      rawPairsAux clues rest (idx + 1)

/-- The unique (word, optional POS) pairs after normalization, the unit of
the spec's minimum-input precondition. -/
def uniquePairs (wl : List Word) (cl : List (List Char)) :
    List (Word × Option (List Char)) :=
  dedupFirst (rawPairsAux cl wl 0)

/-- The cleaned nonempty words of the raw list, in order. -/
def cleanWordsOf (ws : List Word) : List Word :=
  (ws.map sanitizeWord).filter (fun w => decide (w ≠ []))

/-- A nine-word sample input for the board assembler: three lengths, three
first letters and three last letters arranged as a Latin square. -/
def ttNine : List Word :=
  [['A','K','X'], ['B','K','Y'], ['C','K','Z'],
   ['A','K','K','Y'], ['B','K','K','Z'], ['C','K','K','X'],
   ['A','K','K','K','Z'], ['B','K','K','K','X'], ['C','K','K','K','Y']]

/-- Is the character a lowercase ASCII letter. -/
def isLowerLetter (c : Char) : Bool := 'a' ≤ c && c ≤ 'z'

/-- The extraction condition asserted by the claim, transcribed from its
words for comparison with getPOS: the clue begins with 1 to 4 lowercase
letters followed by a period. -/
def specLowercasePOSb (clue : List Char) : Bool :=
  (List.range 4).any (fun i =>
    decide ((clue.take (i + 1)).length = i + 1) &&
    (clue.take (i + 1)).all isLowerLetter &&
    decide (clue.get? (i + 1) = some '.'))

/-- The firing condition of one attempted match length of the POS regular
expression: k leading ASCII letters of either case, then a period. -/
def posCondK (clue : List Char) (k : Nat) : Prop :=
  (clue.take k).length = k ∧ (clue.take k).all isAsciiLetter = true ∧
    clue.get? k = some '.'

theorem mem_dedupFirstAux [DecidableEq α] (s : List α) (l : List α) (a : α) :
    a ∈ dedupFirstAux s l ↔ a ∈ l ∧ a ∉ s := by
  induction l generalizing s with
  | nil => simp [dedupFirstAux]
  | cons x xs ih =>
    by_cases hx : x ∈ s
    · rw [dedupFirstAux, if_pos hx, ih]
      simp only [List.mem_cons]
      constructor
      · rintro ⟨h1, h2⟩
        exact ⟨Or.inr h1, h2⟩
      · rintro ⟨h1 | h1, h2⟩
        · exact absurd (h1 ▸ hx) h2
        · exact ⟨h1, h2⟩
    · rw [dedupFirstAux, if_neg hx]
      simp only [List.mem_cons, ih]
      constructor
      · rintro (rfl | ⟨h1, h2⟩)
        · exact ⟨Or.inl rfl, hx⟩
        · exact ⟨Or.inr h1, fun hc => h2 (Or.inr hc)⟩
      · rintro ⟨rfl | h1, h2⟩
        · exact Or.inl rfl
        · by_cases hxa : a = x
          · exact Or.inl hxa
          · refine Or.inr ⟨h1, fun hc => ?_⟩
            rcases hc with h | h
            · exact hxa h
            · exact h2 h

theorem mem_dedupFirst [DecidableEq α] (l : List α) (a : α) :
    a ∈ dedupFirst l ↔ a ∈ l := by
  simp [dedupFirst, mem_dedupFirstAux]

theorem nodup_dedupFirstAux [DecidableEq α] (s : List α) (l : List α) :
    (dedupFirstAux s l).Nodup := by
  induction l generalizing s with
  | nil => simp [dedupFirstAux]
  | cons x xs ih =>
    by_cases hx : x ∈ s
    · rw [dedupFirstAux, if_pos hx]
      exact ih s
    · rw [dedupFirstAux, if_neg hx]
      refine List.nodup_cons.mpr ⟨fun hc => ?_, ih (x :: s)⟩
      exact ((mem_dedupFirstAux _ _ _).mp hc).2 (List.mem_cons_self x s)

theorem nodup_dedupFirst [DecidableEq α] (l : List α) : (dedupFirst l).Nodup :=
  nodup_dedupFirstAux [] l

theorem sublist_dedupFirstAux [DecidableEq α] (s : List α) (l : List α) :
    (dedupFirstAux s l).Sublist l := by
  induction l generalizing s with
  | nil => simp [dedupFirstAux]
  | cons x xs ih =>
    by_cases hx : x ∈ s
    · rw [dedupFirstAux, if_pos hx]
      exact (ih s).cons x
    · rw [dedupFirstAux, if_neg hx]
      exact (ih (x :: s)).cons₂ x

theorem sublist_dedupFirst [DecidableEq α] (l : List α) :
    (dedupFirst l).Sublist l := sublist_dedupFirstAux [] l

theorem cons_set_perm (l : List α) (k : Nat) (a b : α) (h : l.get? k = some a) :
    Perm (a :: l.set k b) (b :: l) := by
  induction l generalizing k with
  | nil => simp at h
  | cons x xs ih =>
    cases k with
    | zero =>
      simp only [List.get?_cons_zero, Option.some.injEq] at h
      subst h
      simp only [List.set_cons_zero]
      exact List.Perm.swap b x xs
    | succ n =>
      simp only [List.get?_cons_succ] at h
      simp only [List.set_cons_succ]
      exact (List.Perm.swap x a _).trans (((ih n h).cons x).trans (List.Perm.swap b x xs))

theorem listSwap_perm [DecidableEq α] (l : List α) (i j : Nat) :
    Perm (listSwap l i j) l := by
  induction l generalizing i j with
  | nil => simp [listSwap]
  | cons x xs ih =>
    unfold listSwap
    cases hgi : (x :: xs).get? i with
    | none => exact List.Perm.refl _
    | some a =>
      cases hgj : (x :: xs).get? j with
      | none => exact List.Perm.refl _
      | some b =>
        simp only []
        cases i with
        | zero =>
          simp only [List.get?_cons_zero, Option.some.injEq] at hgi
          subst hgi
          cases j with
          | zero =>
            simp only [List.get?_cons_zero, Option.some.injEq] at hgj
            subst hgj
            simp only [List.set_cons_zero]
            exact List.Perm.refl _
          | succ n =>
            simp only [List.get?_cons_succ] at hgj
            simp only [List.set_cons_zero, List.set_cons_succ]
            exact cons_set_perm xs n b x hgj
        | succ m =>
          simp only [List.get?_cons_succ] at hgi
          cases j with
          | zero =>
            simp only [List.get?_cons_zero, Option.some.injEq] at hgj
            subst hgj
            simp only [List.set_cons_succ, List.set_cons_zero]
            exact cons_set_perm xs m a x hgi
          | succ n =>
            simp only [List.get?_cons_succ] at hgj
            simp only [List.set_cons_succ]
            refine List.Perm.cons x ?_
            have hres := ih m n
            unfold listSwap at hres
            rw [hgi, hgj] at hres
            exact hres

theorem listSwap_length [DecidableEq α] (l : List α) (i j : Nat) :
    (listSwap l i j).length = l.length :=
  (listSwap_perm l i j).length_eq

theorem fyAux_perm [DecidableEq α] (l : List α) (σ : Rng) (n : Nat) :
    Perm (fyAux l σ n).1 l := by
  induction n generalizing l σ with
  | zero => exact List.Perm.refl _
  | succ i ih =>
    simp only [fyAux]
    exact (ih _ _).trans (listSwap_perm _ _ _)

theorem fisherYates_perm [DecidableEq α] (l : List α) (σ : Rng) :
    Perm (fisherYates l σ).1 l := fyAux_perm l σ _

theorem fisherYates_length [DecidableEq α] (l : List α) (σ : Rng) :
    (fisherYates l σ).1.length = l.length :=
  (fisherYates_perm l σ).length_eq

theorem insertB_perm (le : α → α → Bool) (a : α) (l : List α) :
    Perm (insertB le a l) (a :: l) := by
  induction l with
  | nil => exact List.Perm.refl _
  | cons b t ih =>
    simp only [insertB]
    by_cases h : le a b = true
    · simp [h]
    · simp only [if_neg h]
      exact (ih.cons b).trans (List.Perm.swap _ _ _)

theorem sortB_perm (le : α → α → Bool) (l : List α) : Perm (sortB le l) l := by
  induction l with
  | nil => exact List.Perm.refl _
  | cons a t ih =>
    simp only [sortB, List.foldr_cons]
    exact (insertB_perm le a _).trans (ih.cons a)

theorem insertB_pairwise (le : α → α → Bool)
    (htotal : ∀ a b, le a b = true ∨ le b a = true)
    (htrans : ∀ a b c, le a b = true → le b c = true → le a c = true)
    (a : α) (l : List α) (hl : l.Pairwise (fun x y => le x y = true)) :
    (insertB le a l).Pairwise (fun x y => le x y = true) := by
  induction l with
  | nil => simp [insertB]
  | cons b t ih =>
    rcases List.pairwise_cons.mp hl with ⟨hb, ht⟩
    simp only [insertB]
    by_cases h : le a b = true
    · simp only [if_pos h]
      refine List.pairwise_cons.mpr ⟨?_, hl⟩
      intro x hx
      rcases List.mem_cons.mp hx with hEq | hx
      · rw [hEq]
        exact h
      · exact htrans a b x h (hb x hx)
    · simp only [if_neg h]
      refine List.pairwise_cons.mpr ⟨?_, ih ht⟩
      intro x hx
      have hx' := (insertB_perm le a t).mem_iff.mp hx
      rcases List.mem_cons.mp hx' with hEq | hx'
      · rw [hEq]
        rcases htotal a b with h1 | h1
        · exact absurd h1 h
        · exact h1
      · exact hb x hx'

theorem sortB_pairwise (le : α → α → Bool)
    (htotal : ∀ a b, le a b = true ∨ le b a = true)
    (htrans : ∀ a b c, le a b = true → le b c = true → le a c = true)
    (l : List α) :
    (sortB le l).Pairwise (fun x y => le x y = true) := by
  induction l with
  | nil => simp [sortB]
  | cons a t ih =>
    simp only [sortB, List.foldr_cons]
    exact insertB_pairwise le htotal htrans a _ ih

theorem findFire_some {m : α → Word → Bool} :
    ∀ {cs : List α} {ws : List Word} {pre : List α} {c : α} {post : List α}
      {w : Word}, findFire m cs ws = some (pre, c, post, w) →
      cs = pre ++ c :: post ∧ ws.filter (m c) = [w] := by
  intro cs
  induction cs with
  | nil =>
    intro ws pre c post w h
    simp [findFire] at h
  | cons c0 rest ih =>
    intro ws pre c post w h
    unfold findFire at h
    split at h
    case _ w0 hf =>
      rcases h with ⟨rfl, rfl, rfl, rfl⟩
      exact ⟨rfl, hf⟩
    case _ hne =>
      cases hrec : findFire m rest ws with
      | none => rw [hrec] at h; simp at h
      | some t =>
        obtain ⟨pre2, c2, post2, w2⟩ := t
        rw [hrec] at h
        simp only [Option.some.injEq] at h
        obtain ⟨rfl, rfl, rfl, rfl⟩ := h
        obtain ⟨hcs, hfil⟩ := ih hrec
        exact ⟨by rw [hcs]; rfl, hfil⟩

theorem runElim_eliminates {m : α → Word → Bool} :
    ∀ (fuel : Nat) (cs : List α) (ws : List Word),
    runElim m fuel cs ws = true → Eliminates m cs ws := by
  intro fuel
  induction fuel with
  | zero =>
    intro cs ws h
    cases ws with
    | nil => exact Eliminates.done cs
    | cons _ _ => simp [runElim] at h
  | succ n ih =>
    intro cs ws h
    cases ws with
    | nil => exact Eliminates.done cs
    | cons w0 wrest =>
      unfold runElim at h
      cases hf : findFire m cs (w0 :: wrest) with
      | none => rw [hf] at h; simp at h
      | some t =>
        obtain ⟨pre, c, post, w⟩ := t
        rw [hf] at h
        obtain ⟨hcs, hfil⟩ := findFire_some hf
        subst hcs
        exact Eliminates.step pre post c _ w hfil (ih _ _ h)

theorem Eliminates.perm {m : α → Word → Bool} {cs : List α} {ws : List Word}
    (h : Eliminates m cs ws) :
    ∀ {cs' : List α} {ws' : List Word}, Perm cs cs' → Perm ws ws' →
    Eliminates m cs' ws' := by
  induction h with
  | done cs =>
    intro cs' ws' _ hw
    have : ws' = [] := hw.symm.eq_nil
    subst this
    exact Eliminates.done cs'
  | step cs₁ cs₂ c ws w hfire hrest ih =>
    intro cs' ws' hc hw
    have hcmem : c ∈ cs' := hc.mem_iff.mp (by simp)
    obtain ⟨l, r, rfl⟩ := List.append_of_mem hcmem
    have hmid : Perm (cs₁ ++ cs₂) (l ++ r) := by
      have h1 : Perm (c :: (cs₁ ++ cs₂)) (c :: (l ++ r)) :=
        (List.perm_middle.symm.trans hc).trans List.perm_middle
      exact h1.cons_inv
    have hfil' : (l ++ c :: r) = l ++ c :: r := rfl
    have hfw : ws'.filter (m c) = [w] := by
      have hp := hw.filter (m c)
      rw [hfire] at hp
      exact (List.perm_singleton.mp hp.symm)
    exact Eliminates.step l r c ws' w hfw (ih hmid (hw.filter _))

theorem forall₂_append_mk {R : α → β → Prop} :
    ∀ {l₁ l₂ : List α} {q₁ q₂ : List β}, List.Forall₂ R l₁ q₁ →
    List.Forall₂ R l₂ q₂ → List.Forall₂ R (l₁ ++ l₂) (q₁ ++ q₂) := by
  intro l₁ l₂ q₁ q₂ h₁ h₂
  induction h₁ with
  | nil => exact h₂
  | cons hab _ ih => exact List.Forall₂.cons hab ih

theorem forall₂_split_middle {R : α → β → Prop} :
    ∀ {l₁ : List α} {a : α} {l₂ : List α} {qs : List β},
    List.Forall₂ R (l₁ ++ a :: l₂) qs →
    ∃ q₁ b q₂, qs = q₁ ++ b :: q₂ ∧ R a b ∧ List.Forall₂ R l₁ q₁ ∧
      List.Forall₂ R l₂ q₂ := by
  intro l₁
  induction l₁ with
  | nil =>
    intro a l₂ qs h
    cases h with
    | cons hab hrest => exact ⟨[], _, _, rfl, hab, List.Forall₂.nil, hrest⟩
  | cons x xs ih =>
    intro a l₂ qs h
    cases h with
    | cons hxb hrest =>
      obtain ⟨q₁, b, q₂, rfl, hab, h₁, h₂⟩ := ih hrest
      exact ⟨_ :: q₁, b, q₂, rfl, hab, List.Forall₂.cons hxb h₁, h₂⟩

theorem Eliminates.of_forall₂ {m : α → Word → Bool} {m2 : β → Word → Bool}
    {cs : List α} {ws : List Word} (h : Eliminates m cs ws) :
    ∀ {qs : List β},
    List.Forall₂ (fun c q => ∀ x ∈ ws, m c x = m2 q x) cs qs →
    Eliminates m2 qs ws := by
  induction h with
  | done cs =>
    intro qs hrel
    exact Eliminates.done qs
  | step cs₁ cs₂ c ws w hfire hrest ih =>
    intro qs hrel
    obtain ⟨q₁, b, q₂, rfl, hab, h₁, h₂⟩ := forall₂_split_middle hrel
    have hfil : ws.filter (m2 b) = [w] := by
      rw [← hfire]
      exact (List.filter_congr (fun x hx => (hab x hx).symm))
    refine Eliminates.step q₁ q₂ b ws w hfil (ih ?_)
    exact (forall₂_append_mk h₁ h₂).imp
      (fun a b hR x hx => hR x (List.mem_of_mem_filter hx))

/-! ### Provenance of the selection built by attemptBuild -/

theorem chooseFrom_mem [DecidableEq α] {arr : List α} {b : Bool} {σ : Rng}
    {c : α} {σ' : Rng} (h : chooseFrom arr b σ = (some c, σ')) : c ∈ arr := by
  unfold chooseFrom at h
  cases arr with
  | nil => simp at h
  | cons a rest =>
    by_cases hb : b = true
    · rw [if_pos hb] at h
      simp only [Prod.mk.injEq] at h
      exact List.get?_mem h.1
    · rw [if_neg hb] at h
      simp only [Prod.mk.injEq] at h
      exact List.get?_mem h.1

theorem ambiguousOf_subset (uw : List Word) (w : Word) {c : DGAConstraint}
    (h : c ∈ ambiguousOf uw w) : c ∈ wordConstraints uw w :=
  (List.mem_filter.mp h).1

theorem uniqueOf_subset (uw : List Word) (w : Word) {c : DGAConstraint}
    (h : c ∈ uniqueOf uw w) : c ∈ wordConstraints uw w :=
  (List.mem_filter.mp h).1

theorem preferredAmbiguous_subset (uw forced : List Word) (w : Word)
    {c : DGAConstraint} (h : c ∈ preferredAmbiguous uw forced w) :
    c ∈ wordConstraints uw w :=
  ambiguousOf_subset uw w (List.mem_filter.mp h).1

theorem pickAmbiguousFor_mem {uw forced : List Word} {w : Word} {b : Bool}
    {σ : Rng} {c : DGAConstraint} {σ' : Rng}
    (h : pickAmbiguousFor uw forced w b σ = (some c, σ')) :
    c ∈ wordConstraints uw w := by
  unfold pickAmbiguousFor at h
  split at h
  · simp at h
  · split at h
    · exact ambiguousOf_subset uw w (chooseFrom_mem h)
    · exact preferredAmbiguous_subset uw forced w (chooseFrom_mem h)

theorem chooseRestConstraint_mem {uw forced : List Word} {w : Word} {b : Bool}
    {σ : Rng} {c : DGAConstraint} {σ' : Rng}
    (h : chooseRestConstraint uw forced w b σ = (some c, σ')) :
    c ∈ wordConstraints uw w := by
  unfold chooseRestConstraint at h
  split at h
  · exact uniqueOf_subset uw w (chooseFrom_mem h)
  · split at h
    · exact preferredAmbiguous_subset uw forced w (chooseFrom_mem h)
    · split at h
      · exact ambiguousOf_subset uw w (chooseFrom_mem h)
      · exact chooseFrom_mem h

theorem mkConstraint_targetWord {uw : List Word} {w : Word}
    {t : ConstraintType} {c : DGAConstraint} (h : mkConstraint uw w t = some c) :
    c.targetWord = w := by
  unfold mkConstraint at h
  split at h
  · simp at h
  · split at h
    · simp only [Option.some.injEq] at h
      rw [← h]
    · simp at h

theorem wordConstraints_targetWord {uw : List Word} {w : Word}
    {c : DGAConstraint} (h : c ∈ wordConstraints uw w) : c.targetWord = w := by
  obtain ⟨t, _, hmk⟩ := List.mem_filterMap.mp h
  exact mkConstraint_targetWord hmk

theorem pickForcedLoop_sound (uw forced : List Word) (b : Bool) :
    ∀ (ws : List Word) (sel : List (Word × DGAConstraint)) (σ : Rng)
      (sel' : List (Word × DGAConstraint)) (σ' : Rng),
    pickForcedLoop uw forced b ws sel σ = (some sel', σ') →
    (∀ p ∈ sel, p.2 ∈ wordConstraints uw p.1) →
    ((∀ p ∈ sel', p.2 ∈ wordConstraints uw p.1) ∧
      sel'.map Prod.fst = sel.map Prod.fst ++ ws) := by
  intro ws
  induction ws with
  | nil =>
    intro sel σ sel' σ' h hP
    unfold pickForcedLoop at h
    simp only [Prod.mk.injEq, Option.some.injEq] at h
    obtain ⟨rfl, rfl⟩ := h
    exact ⟨hP, by simp⟩
  | cons w rest ih =>
    intro sel σ sel' σ' h hP
    unfold pickForcedLoop at h
    split at h
    case _ σ2 heq => simp at h
    case _ c σ2 heq =>
      have hcmem : c ∈ wordConstraints uw w := pickAmbiguousFor_mem heq
      have hP2 : ∀ p ∈ sel ++ [(w, c)], p.2 ∈ wordConstraints uw p.1 := by
        intro p hp
        rcases List.mem_append.mp hp with hp | hp
        · exact hP p hp
        · simp only [List.mem_singleton] at hp
          subst hp
          exact hcmem
      obtain ⟨hA, hB⟩ := ih _ _ _ _ h hP2
      refine ⟨hA, ?_⟩
      rw [hB]
      simp

theorem pickRestLoop_sound (uw forced : List Word) (b : Bool) :
    ∀ (ws : List Word) (sel : List (Word × DGAConstraint)) (σ : Rng)
      (sel' : List (Word × DGAConstraint)) (σ' : Rng),
    pickRestLoop uw forced b ws sel σ = (some sel', σ') →
    (∀ p ∈ sel, p.2 ∈ wordConstraints uw p.1) →
    (sel.map Prod.fst).Nodup →
    ((∀ p ∈ sel', p.2 ∈ wordConstraints uw p.1) ∧
      (sel'.map Prod.fst).Nodup ∧
      (∀ x, (x ∈ sel.map Prod.fst ∨ x ∈ ws) → x ∈ sel'.map Prod.fst)) := by
  intro ws
  induction ws with
  | nil =>
    intro sel σ sel' σ' h hP hnd
    unfold pickRestLoop at h
    simp only [Prod.mk.injEq, Option.some.injEq] at h
    obtain ⟨rfl, rfl⟩ := h
    refine ⟨hP, hnd, ?_⟩
    intro x hx
    rcases hx with hx | hx
    · exact hx
    · simp at hx
  | cons w rest ih =>
    intro sel σ sel' σ' h hP hnd
    unfold pickRestLoop at h
    by_cases hw : w ∈ sel.map Prod.fst
    · rw [if_pos hw] at h
      obtain ⟨hA, hB, hC⟩ := ih _ _ _ _ h hP hnd
      refine ⟨hA, hB, ?_⟩
      intro x hx
      rcases hx with hx | hx
      · exact hC x (Or.inl hx)
      · rcases List.mem_cons.mp hx with rfl | hx
        · exact hC x (Or.inl hw)
        · exact hC x (Or.inr hx)
    · rw [if_neg hw] at h
      split at h
      case _ σ2 heq => simp at h
      case _ c σ2 heq =>
        have hcmem : c ∈ wordConstraints uw w := chooseRestConstraint_mem heq
        have hP2 : ∀ p ∈ sel ++ [(w, c)], p.2 ∈ wordConstraints uw p.1 := by
          intro p hp
          rcases List.mem_append.mp hp with hp | hp
          · exact hP p hp
          · simp only [List.mem_singleton] at hp
            subst hp
            exact hcmem
        have hnd2 : ((sel ++ [(w, c)]).map Prod.fst).Nodup := by
          simp only [List.map_append, List.map_cons, List.map_nil]
          rw [List.nodup_append]
          refine ⟨hnd, List.nodup_singleton w, ?_⟩
          intro x hx hx2
          simp only [List.mem_singleton] at hx2
          subst hx2
          exact hw hx
        obtain ⟨hA, hB, hC⟩ := ih _ _ _ _ h hP2 hnd2
        have hmap : (sel ++ [(w, c)]).map Prod.fst = sel.map Prod.fst ++ [w] := by
          simp
        refine ⟨hA, hB, ?_⟩
        intro x hx
        rcases hx with hx | hx
        · refine hC x (Or.inl ?_)
          rw [hmap]
          exact List.mem_append.mpr (Or.inl hx)
        · rcases List.mem_cons.mp hx with hEq | hx
          · refine hC x (Or.inl ?_)
            rw [hmap, hEq]
            exact List.mem_append.mpr (Or.inr (List.mem_singleton.mpr rfl))
          · exact hC x (Or.inr hx)

theorem forcedPickLoop_nodup (ambComps : List (List Word)) (desired : Nat) :
    ∀ (cands : List (Word × Nat)) (forced : List Word)
      (usage : List (Nat × Nat)), forced.Nodup →
    (forcedPickLoop ambComps desired cands forced usage).Nodup := by
  intro cands
  induction cands with
  | nil =>
    intro forced usage hnd
    exact hnd
  | cons e rest ih =>
    intro forced usage hnd
    obtain ⟨w, ci⟩ := e
    unfold forcedPickLoop
    by_cases h1 : desired ≤ forced.length
    · rw [if_pos h1]
      exact hnd
    · rw [if_neg h1]
      by_cases h2 : ((ambComps.get? ci).map List.length).getD 0 - 1 = 0
      · rw [if_pos h2]
        exact ih forced usage hnd
      · rw [if_neg h2]
        by_cases h3 : ((ambComps.get? ci).map List.length).getD 0 - 1 ≤
            ((usage.lookup ci).getD 0)
        · rw [if_pos h3]
          exact ih forced usage hnd
        · rw [if_neg h3]
          by_cases h4 : w ∈ forced
          · rw [if_pos h4]
            exact ih forced _ hnd
          · rw [if_neg h4]
            refine ih _ _ ?_
            rw [List.nodup_append]
            exact ⟨hnd, List.nodup_singleton w, fun x hx hx2 => by
              simp only [List.mem_singleton] at hx2
              subst hx2
              exact h4 hx⟩

theorem computeForcedAmbiguousSet_nodup (ambComps : List (List Word))
    (desired : Nat) (b : Bool) (σ : Rng) :
    (computeForcedAmbiguousSet ambComps desired b σ).1.Nodup := by
  unfold computeForcedAmbiguousSet
  by_cases h : desired = 0
  · rw [if_pos h]
    exact List.nodup_nil
  · rw [if_neg h]
    exact forcedPickLoop_nodup ambComps desired _ [] [] List.nodup_nil

theorem attemptBuild_sound {uw forced : List Word} {req : Nat} {b : Bool}
    {σ : Rng} {sel : List (Word × DGAConstraint)} {σ' : Rng}
    (h : attemptBuild uw forced req b σ = (some sel, σ'))
    (hndu : uw.Nodup) (hndf : forced.Nodup) :
    (∀ p ∈ sel, p.2 ∈ wordConstraints uw p.1) ∧
    Perm (sel.map Prod.fst) uw ∧
    validateSolvability (sel.map Prod.snd) uw = true := by
  unfold attemptBuild at h
  split at h
  case _ σ1 heq1 => simp at h
  case _ sel1 σ1 heq1 =>
    split at h
    case _ σ2 heq2 => simp at h
    case _ sel2 σ2 heq2 =>
      have hrest : ∃ ws σs, Perm ws uw ∧
          pickRestLoop uw forced b ws sel1 σs = (some sel2, σ2) := by
        by_cases hb : b = true
        · rw [if_pos hb] at heq2
          refine ⟨(fisherYates uw σ1).1, (fisherYates uw σ1).2,
            fisherYates_perm uw σ1, ?_⟩
          rw [← heq2]
        · rw [if_neg hb] at heq2
          exact ⟨uw, σ1, List.Perm.refl uw, heq2⟩
      obtain ⟨ws, σs, hperm, hpr⟩ := hrest
      obtain ⟨hP1, hK1⟩ := pickForcedLoop_sound uw forced b forced [] σ sel1 σ1
        heq1 (by intro p hp; simp at hp)
      simp only [List.map_nil, List.nil_append] at hK1
      have hnd1 : (sel1.map Prod.fst).Nodup := by rw [hK1]; exact hndf
      obtain ⟨hP2, hnd2, hcov⟩ :=
        pickRestLoop_sound uw forced b ws sel1 σs sel2 σ2 hpr hP1 hnd1
      split at h
      case _ hlen => simp at h
      case _ hlen =>
        split at h
        case _ hcount => simp at h
        case _ hcount =>
          split at h
          case _ hval =>
            simp only [Prod.mk.injEq, Option.some.injEq] at h
            obtain ⟨h5, h6⟩ := h
            subst h5
            subst h6
            have hlen2 : sel2.length = uw.length := by
              by_cases hc : sel2.length = uw.length
              · exact hc
              · exact absurd hc (by simpa using hlen)
            have hsub : uw ⊆ sel2.map Prod.fst := by
              intro x hx
              exact hcov x (Or.inr (hperm.mem_iff.mpr hx))
            have hsp : uw.Subperm (sel2.map Prod.fst) :=
              List.subperm_of_subset hndu hsub
            have hp : Perm uw (sel2.map Prod.fst) :=
              hsp.perm_of_length_le (by rw [List.length_map, hlen2])
            exact ⟨hP2, hp.symm, hval⟩
          case _ hval => simp at h

theorem attemptLoop_some {uw : List Word} {ambComps : List (List Word)}
    {target : Nat} :
    ∀ {n : Nat} {σ : Rng} {sel : List (Word × DGAConstraint)} {σ' : Rng},
    attemptLoop uw ambComps target n σ = (some sel, σ') →
    ∃ forced σ0, forced.Nodup ∧
      attemptBuild uw forced target true σ0 = (some sel, σ') := by
  intro n
  induction n with
  | zero =>
    intro σ sel σ' h
    simp [attemptLoop] at h
  | succ k ih =>
    intro σ sel σ' h
    unfold attemptLoop at h
    split at h
    case _ forced σ1 heqf =>
      split at h
      case _ sel2 σ2 heqb =>
        simp only [Prod.mk.injEq, Option.some.injEq] at h
        obtain ⟨h5, h6⟩ := h
        subst h5
        subst h6
        refine ⟨forced, σ1, ?_, heqb⟩
        have := computeForcedAmbiguousSet_nodup ambComps target true σ
        rw [heqf] at this
        exact this
      case _ σ2 heqb =>
        exact ih h

theorem fallbackLoop_some {uw : List Word} {ambComps : List (List Word)} :
    ∀ {r : Nat} {σ : Rng} {sel : List (Word × DGAConstraint)} {σ' : Rng},
    fallbackLoop uw ambComps r σ = (some sel, σ') →
    ∃ forced σ0 req, forced.Nodup ∧
      attemptBuild uw forced req false σ0 = (some sel, σ') := by
  intro r
  induction r with
  | zero =>
    intro σ sel σ' h
    unfold fallbackLoop at h
    split at h
    case _ forced σ1 heqf =>
      refine ⟨forced, σ1, 0, ?_, h⟩
      have := computeForcedAmbiguousSet_nodup ambComps 0 false σ
      rw [heqf] at this
      exact this
  | succ k ih =>
    intro σ sel σ' h
    unfold fallbackLoop at h
    split at h
    case _ forced σ1 heqf =>
      split at h
      case _ sel2 σ2 heqb =>
        simp only [Prod.mk.injEq, Option.some.injEq] at h
        obtain ⟨h5, h6⟩ := h
        subst h5
        subst h6
        refine ⟨forced, σ1, k + 1, ?_, heqb⟩
        have := computeForcedAmbiguousSet_nodup ambComps (k + 1) false σ
        rw [heqf] at this
        exact this
      case _ σ2 heqb =>
        exact ih h

theorem dgaGenerateCore_success {uw : List Word} {σ : Rng} {res : DGAResult}
    (h : dgaGenerateCore uw σ = res) (hnd : uw.Nodup)
    (hs : res.success = true) :
    ∃ (sel : List (Word × DGAConstraint)) (σf : Rng),
      (∀ p ∈ sel, p.2 ∈ wordConstraints uw p.1) ∧
      Perm (sel.map Prod.fst) uw ∧
      validateSolvability (sel.map Prod.snd) uw = true ∧
      res = formatResult uw (sel.map Prod.snd) σf := by
  unfold dgaGenerateCore at h
  split at h
  · rw [← h] at hs
    simp at hs
  · split at h
    case _ sel2 σ2 heqa =>
      obtain ⟨forced, σ0, hndf, hab⟩ := attemptLoop_some heqa
      obtain ⟨hP, hperm, hval⟩ := attemptBuild_sound hab hnd hndf
      exact ⟨sel2, σ2, hP, hperm, hval, h.symm⟩
    case _ σ2 heqa =>
      split at h
      case _ sel3 σ3 heqb =>
        obtain ⟨forced, σ0, req, hndf, hab⟩ := fallbackLoop_some heqb
        obtain ⟨hP, hperm, hval⟩ := attemptBuild_sound hab hnd hndf
        exact ⟨sel3, σ3, hP, hperm, hval, h.symm⟩
      case _ σ3 heqb =>
        rw [← h] at hs
        simp at hs

theorem dgaPool_nodup (wordList : List Word) (limit : Nat) (σ : Rng) :
    (dgaPool wordList limit σ).1.Nodup := by
  unfold dgaPool
  split
  · split
    case _ sh σ2 heq =>
      have hperm : Perm sh (dedupFirst ((wordList.map sanitizeWord).filter
          (fun w => decide (w ≠ [])))) := by
        have := fisherYates_perm (dedupFirst ((wordList.map sanitizeWord).filter
          (fun w => decide (w ≠ [])))) σ
        rw [heq] at this
        exact this
      exact List.Nodup.sublist (List.take_sublist limit sh)
        (hperm.nodup_iff.mpr (nodup_dedupFirst _))
  · exact nodup_dedupFirst _

theorem assignIdsFrom_map_word : ∀ (n : Nat) (l : List DGAClue),
    (assignIdsFrom n l).map (fun q => q.word) = l.map (fun q => q.word) := by
  intro n l
  induction l generalizing n with
  | nil => rfl
  | cons q t ih =>
    simp only [assignIdsFrom, List.map_cons]
    rw [ih]

theorem assignIdsFrom_forall₂ : ∀ (n : Nat) (l : List DGAClue),
    List.Forall₂ (fun q q' => q.word = q'.word ∧
      q.matchingWords = q'.matchingWords) l (assignIdsFrom n l) := by
  intro n l
  induction l generalizing n with
  | nil => exact List.Forall₂.nil
  | cons q t ih =>
    exact List.Forall₂.cons ⟨rfl, rfl⟩ (ih (n + 1))

theorem forall₂_map_self {R : α → β → Prop} (f : α → β) :
    ∀ (l : List α), (∀ a ∈ l, R a (f a)) → List.Forall₂ R l (l.map f) := by
  intro l
  induction l with
  | nil => intro _; exact List.Forall₂.nil
  | cons a t ih =>
    intro h
    exact List.Forall₂.cons (h a (List.mem_cons_self a t))
      (ih (fun x hx => h x (List.mem_cons_of_mem a hx)))

theorem formatClue_matching_agree {uw : List Word} {c : DGAConstraint}
    {x : Word} (hx : x ∈ uw) :
    matchesB c x = decide (x ∈ (formatClue uw c).matchingWords) := by
  have hmem : x ∈ (formatClue uw c).matchingWords ↔ matchesB c x = true := by
    show x ∈ sortB lexLe (uw.filter (fun w => matchesB c w)) ↔ _
    rw [(sortB_perm lexLe _).mem_iff, List.mem_filter]
    exact ⟨fun h => h.2, fun h => ⟨hx, h⟩⟩
  by_cases hm : matchesB c x = true
  · rw [hm]
    exact (decide_eq_true (hmem.mpr hm)).symm
  · rw [Bool.not_eq_true] at hm
    rw [hm]
    refine (decide_eq_false ?_).symm
    intro hc
    rw [hmem] at hc
    rw [hm] at hc
    exact Bool.false_ne_true hc

theorem nodup_filter_eq_singleton {l : List Word} {w : Word}
    (hnd : l.Nodup) (hw : w ∈ l) :
    l.filter (fun x => decide (x = w)) = [w] := by
  induction l with
  | nil => simp at hw
  | cons a t ih =>
    rcases List.nodup_cons.mp hnd with ⟨hat, hndt⟩
    rcases List.mem_cons.mp hw with hEq | hw2
    · rw [hEq]
      rw [List.filter_cons_of_pos (by simp)]
      have ht : t.filter (fun x => decide (x = a)) = [] := by
        rw [List.filter_eq_nil_iff]
        intro x hx
        simp only [decide_eq_true_eq]
        intro hxa
        exact hat (hxa ▸ hx)
      rw [ht]
    · have hne : a ≠ w := by
        intro hEq
        subst hEq
        exact hat hw2
      rw [List.filter_cons_of_neg (by simpa using hne)]
      exact ih hndt hw2

/-- The DGA success result presented as pieces usable by the claims: the
formatted selection, its permutation facts and its validation. -/
theorem dgaGenerate_success {wl : List Word} {limit : Nat} {σ : Rng}
    {res : DGAResult} (hres : dgaGenerate wl limit σ = res)
    (hs : res.success = true) :
    ∃ (uw : List Word) (csel : List DGAConstraint) (σf : Rng),
      uw.Nodup ∧
      (∀ c ∈ csel, ∃ w ∈ uw, c ∈ wordConstraints uw w) ∧
      Perm (csel.map (fun c => c.targetWord)) uw ∧
      validateSolvability csel uw = true ∧
      res = formatResult uw csel σf := by
  have hcore : dgaGenerateCore (dgaPool wl limit σ).1 (dgaPool wl limit σ).2
      = res := by
    rw [← hres]
    rfl
  obtain ⟨sel, σf, hP, hperm, hval, hfmt⟩ :=
    dgaGenerateCore_success hcore (dgaPool_nodup wl limit σ) hs
  refine ⟨(dgaPool wl limit σ).1, sel.map Prod.snd, σf, dgaPool_nodup wl limit σ,
    ?_, ?_, hval, hfmt⟩
  · intro c hc
    obtain ⟨p, hp, rfl⟩ := List.mem_map.mp hc
    refine ⟨p.1, ?_, hP p hp⟩
    exact hperm.mem_iff.mp (List.mem_map.mpr ⟨p, hp, rfl⟩)
  · have : (sel.map Prod.snd).map (fun c => c.targetWord) =
        sel.map Prod.fst := by
      rw [List.map_map]
      refine List.map_congr_left ?_
      intro p hp
      exact wordConstraints_targetWord (hP p hp)
    rw [this]
    exact hperm

/-- C1: for every call to DGAGenerator.generate that returns success true,
the elimination procedure over the returned clues and word bank resolves
every word with no deadlock: repeatedly a clue whose matching set
restricted to the still-unresolved words of the word bank has exactly one
member fires, that word and clue are removed, until no words remain. -/
theorem claim_dga_solvability (wl : List Word) (limit : Nat) (σ : Rng)
    (res : DGAResult) (hres : dgaGenerate wl limit σ = res)
    (hs : res.success = true) :
    Eliminates (fun q x => decide (x ∈ q.matchingWords)) res.clues
      res.wordBank := by
  obtain ⟨uw, csel, σf, hnd, hProv, hperm, hval, hfmt⟩ :=
    dgaGenerate_success hres hs
  subst hfmt
  show Eliminates _
    (assignIdsFrom 1 (fisherYates (csel.map (formatClue uw)) σf).1)
    (sortB lexLe uw)
  have h1 : Eliminates matchesB csel uw := runElim_eliminates _ _ _ hval
  have h2 : Eliminates (fun q x => decide (x ∈ q.matchingWords))
      (csel.map (formatClue uw)) uw := by
    refine h1.of_forall₂ (forall₂_map_self (formatClue uw) csel ?_)
    intro c hc x hx
    exact formatClue_matching_agree hx
  have h3 : Eliminates (fun q x => decide (x ∈ q.matchingWords))
      ((fisherYates (csel.map (formatClue uw)) σf).1) uw :=
    h2.perm (fisherYates_perm _ _).symm (List.Perm.refl uw)
  have h4 : Eliminates (fun q x => decide (x ∈ q.matchingWords))
      (assignIdsFrom 1 (fisherYates (csel.map (formatClue uw)) σf).1) uw := by
    refine h3.of_forall₂ ?_
    refine (assignIdsFrom_forall₂ 1 _).imp ?_
    intro q q' hqq x hx
    simp only [hqq.2]
  exact h4.perm (List.Perm.refl _) (sortB_perm lexLe uw).symm

/-- Witness for C1 at a concrete input. -/
theorem claim_dga_solvability_witness :
    Eliminates (fun q x => decide (x ∈ q.matchingWords))
      (dgaGenerate sampleSixWords 10 []).clues
      (dgaGenerate sampleSixWords 10 []).wordBank :=
  claim_dga_solvability sampleSixWords 10 [] _ rfl (by decide)

/-- C5: for every successful DGA result the clue-to-word mapping is a
bijection over the word bank: every word of the word bank is the word of
exactly one clue, every clue word is in the word bank, and the clue and
word bank counts agree. -/
theorem claim_dga_bijection (wl : List Word) (limit : Nat) (σ : Rng)
    (res : DGAResult) (hres : dgaGenerate wl limit σ = res)
    (hs : res.success = true) :
    (∀ w ∈ res.wordBank,
      (res.clues.filter (fun q => decide (q.word = w))).length = 1) ∧
    (∀ q ∈ res.clues, q.word ∈ res.wordBank) ∧
    res.clues.length = res.wordBank.length := by
  obtain ⟨uw, csel, σf, hnd, hProv, hperm, hval, hfmt⟩ :=
    dgaGenerate_success hres hs
  subst hfmt
  have hclues : (formatResult uw csel σf).clues =
      assignIdsFrom 1 (fisherYates (csel.map (formatClue uw)) σf).1 := rfl
  have hwb : (formatResult uw csel σf).wordBank = sortB lexLe uw := rfl
  have hmapword : (formatResult uw csel σf).clues.map (fun q => q.word)
      = (fisherYates (csel.map (formatClue uw)) σf).1.map (fun q => q.word) := by
    rw [hclues, assignIdsFrom_map_word]
  have hpermw : Perm ((formatResult uw csel σf).clues.map (fun q => q.word))
      (sortB lexLe uw) := by
    rw [hmapword]
    have h1 : Perm
        ((fisherYates (csel.map (formatClue uw)) σf).1.map (fun q => q.word))
        ((csel.map (formatClue uw)).map (fun q => q.word)) :=
      (fisherYates_perm _ _).map _
    have h2 : (csel.map (formatClue uw)).map (fun q => q.word) =
        csel.map (fun c => c.targetWord) := by
      rw [List.map_map]
      rfl
    refine h1.trans ?_
    rw [h2]
    exact hperm.trans (sortB_perm lexLe uw).symm
  have hndwb : (sortB lexLe uw).Nodup :=
    ((sortB_perm lexLe uw).nodup_iff).mpr hnd
  refine ⟨?_, ?_, ?_⟩
  · intro w hw
    rw [hwb] at hw
    have e1 : ((formatResult uw csel σf).clues.filter
        (fun q => decide (q.word = w))).length =
        List.countP (fun q => decide (q.word = w))
          (formatResult uw csel σf).clues :=
      (List.countP_eq_length_filter _ _).symm
    have e2 : List.countP (fun q => decide (q.word = w))
        (formatResult uw csel σf).clues =
        List.countP (fun x => decide (x = w))
          ((formatResult uw csel σf).clues.map (fun q => q.word)) := by
      rw [List.countP_map]
      rfl
    have e3 : List.countP (fun x => decide (x = w))
        ((formatResult uw csel σf).clues.map (fun q => q.word)) =
        List.countP (fun x => decide (x = w)) (sortB lexLe uw) :=
      hpermw.countP_eq _
    have e4 : List.countP (fun x => decide (x = w)) (sortB lexLe uw) =
        ((sortB lexLe uw).filter (fun x => decide (x = w))).length :=
      List.countP_eq_length_filter _ _
    rw [e1, e2, e3, e4, nodup_filter_eq_singleton hndwb hw]
    rfl
  · intro q hq
    rw [hwb]
    refine hpermw.mem_iff.mp ?_
    exact List.mem_map.mpr ⟨q, hq, rfl⟩
  · rw [hwb]
    have := hpermw.length_eq
    rw [List.length_map] at this
    exact this

/-- Witness for C5 at a concrete input. -/
theorem claim_dga_bijection_witness :
    (∀ w ∈ (dgaGenerate sampleSixWords 10 []).wordBank,
      ((dgaGenerate sampleSixWords 10 []).clues.filter
        (fun q => decide (q.word = w))).length = 1) ∧
    (∀ q ∈ (dgaGenerate sampleSixWords 10 []).clues,
      q.word ∈ (dgaGenerate sampleSixWords 10 []).wordBank) ∧
    (dgaGenerate sampleSixWords 10 []).clues.length =
      (dgaGenerate sampleSixWords 10 []).wordBank.length :=
  claim_dga_bijection sampleSixWords 10 [] _ rfl (by decide)

set_option maxRecDepth 200000 in
/-- Counterexample to C2: an input of six sanitized unique words within
the clue count limit on which DGAGenerator.generate returns success
false, because the twin words share every available constraint feature
and no selection can ever be eliminated. -/
theorem claim_dga_fallback_counterexample :
    (dedupFirst ((twinSixWords.map sanitizeWord).filter
      (fun w => decide (w ≠ [])))).length = 6 ∧
    6 ≤ 10 ∧
    (dgaGenerate twinSixWords 10 []).success = false := by
  refine ⟨by decide, by decide, by decide⟩

theorem dgaGenerateCore_outcome (uw : List Word) (σ : Rng)
    (h6 : ¬ uw.length < 6) :
    (dgaGenerateCore uw σ).success = true ∨
    (dgaGenerateCore uw σ).message = some "Could not generate a deductive path for the selected subset. Try regenerating to pick a different set of words." := by
  unfold dgaGenerateCore
  rw [if_neg h6]
  split
  case _ sel σ2 heq => exact Or.inl rfl
  case _ σ2 heq =>
    split
    case _ sel σ3 heq2 => exact Or.inl rfl
    case _ σ3 heq2 => exact Or.inr rfl

/-- C2 as amended: with at least six sanitized unique words, none dropped
by the limit, the minimum-words rejection is never taken; the call either
succeeds or reports the exhausted-fallback message (success itself is not
guaranteed, since no solvable assignment need exist). -/
theorem claim_dga_fallback_amended (wl : List Word) (limit : Nat) (σ : Rng)
    (h6 : 6 ≤ (dedupFirst ((wl.map sanitizeWord).filter
      (fun w => decide (w ≠ [])))).length)
    (hlim : (dedupFirst ((wl.map sanitizeWord).filter
      (fun w => decide (w ≠ [])))).length ≤ limit) :
    (dgaGenerate wl limit σ).success = true ∨
    (dgaGenerate wl limit σ).message = some "Could not generate a deductive path for the selected subset. Try regenerating to pick a different set of words." := by
  have hgen : dgaGenerate wl limit σ =
      dgaGenerateCore (dgaPool wl limit σ).1 (dgaPool wl limit σ).2 := rfl
  have hpool : dgaPool wl limit σ =
      (dedupFirst ((wl.map sanitizeWord).filter (fun w => decide (w ≠ []))),
        σ) := by
    unfold dgaPool
    rw [if_neg (by omega)]
  have hgen2 : dgaGenerate wl limit σ = dgaGenerateCore
      (dedupFirst ((wl.map sanitizeWord).filter (fun w => decide (w ≠ []))))
      σ := by
    rw [hgen, hpool]
  rw [hgen2]
  exact dgaGenerateCore_outcome _ _ (Nat.not_lt.mpr h6)

/-- Witness for the amended C2 at a concrete input. -/
theorem claim_dga_fallback_amended_witness :
    (dgaGenerate sampleSixWords 10 []).success = true ∨
    (dgaGenerate sampleSixWords 10 []).message = some "Could not generate a deductive path for the selected subset. Try regenerating to pick a different set of words." :=
  claim_dga_fallback_amended sampleSixWords 10 [] (by decide) (by decide)

theorem dgaGenerateCore_wordBank_length (uw : List Word) (σ : Rng) :
    (dgaGenerateCore uw σ).wordBank.length = uw.length := by
  unfold dgaGenerateCore
  split
  · rfl
  · split
    case _ sel σ2 heq => exact (sortB_perm lexLe uw).length_eq
    case _ σ2 heq =>
      split
      case _ sel σ3 heq2 => exact (sortB_perm lexLe uw).length_eq
      case _ σ3 heq2 => rfl

theorem dgaPool_length (wl : List Word) (limit : Nat) (σ : Rng) :
    (dgaPool wl limit σ).1.length =
      min (dedupFirst ((wl.map sanitizeWord).filter
        (fun w => decide (w ≠ [])))).length limit := by
  unfold dgaPool
  split
  case _ hlt =>
    split
    case _ sh σ2 heq =>
      have hlen : sh.length = (dedupFirst ((wl.map sanitizeWord).filter
          (fun w => decide (w ≠ [])))).length := by
        have := fisherYates_length (dedupFirst ((wl.map sanitizeWord).filter
          (fun w => decide (w ≠ [])))) σ
        rw [heq] at this
        exact this
      simp only [List.length_take, hlen]
      omega
  case _ hlt =>
    show (dedupFirst ((wl.map sanitizeWord).filter
      (fun w => decide (w ≠ [])))).length = _
    omega

/-- C10: the random subset of the requested size is taken before the
minimum-word check, so the retained pool (the returned word bank) always
has size min(unique count, limit); with limit below 6 and more unique
words than the limit the call fails with the minimum-words message even
though six or more unique words were supplied. -/
theorem claim_dga_limit_before_min_check (wl : List Word) (limit : Nat)
    (σ : Rng) :
    (dgaGenerate wl limit σ).wordBank.length =
      min (dedupFirst ((wl.map sanitizeWord).filter
        (fun w => decide (w ≠ [])))).length limit ∧
    (limit < 6 →
      limit < (dedupFirst ((wl.map sanitizeWord).filter
        (fun w => decide (w ≠ [])))).length →
      (dgaGenerate wl limit σ).success = false ∧
      (dgaGenerate wl limit σ).message =
        some "Please provide at least 6 words.") := by
  have hgen : dgaGenerate wl limit σ =
      dgaGenerateCore (dgaPool wl limit σ).1 (dgaPool wl limit σ).2 := rfl
  constructor
  · rw [hgen, dgaGenerateCore_wordBank_length, dgaPool_length]
  · intro hlim hcount
    have hlen : (dgaPool wl limit σ).1.length < 6 := by
      rw [dgaPool_length]
      omega
    rw [hgen]
    unfold dgaGenerateCore
    rw [if_pos hlen]
    exact ⟨rfl, rfl⟩

/-- Witness for C10 at a concrete input. -/
theorem claim_dga_limit_before_min_check_witness :
    (dgaGenerate sampleSixWords 3 []).success = false ∧
    (dgaGenerate sampleSixWords 3 []).message =
      some "Please provide at least 6 words." :=
  (claim_dga_limit_before_min_check sampleSixWords 3 []).2 (by decide)
    (by decide)

theorem findSome?_some {f : α → Option β} :
    ∀ {l : List α} {b : β}, l.findSome? f = some b → ∃ a ∈ l, f a = some b := by
  intro l
  induction l with
  | nil =>
    intro b h
    simp [List.findSome?] at h
  | cons x xs ih =>
    intro b h
    rw [List.findSome?_cons] at h
    cases hx : f x with
    | some y =>
      rw [hx] at h
      refine ⟨x, List.mem_cons_self x xs, ?_⟩
      rw [hx]
      exact h
    | none =>
      rw [hx] at h
      obtain ⟨a, ha, hfa⟩ := ih h
      exact ⟨a, List.mem_cons_of_mem x ha, hfa⟩

theorem tryPlaceAt_canPlace {g : WorkGrid} {size : Nat} {cur : Word}
    {pw : PlacedWord} {j k : Nat} {r c : Int} {d : Direction}
    (h : tryPlaceAt g size cur pw j k = some (r, c, d)) :
    canPlaceWord g size cur r c d = true := by
  unfold tryPlaceAt at h
  split at h
  case _ pc cc hpj hck =>
    split at h
    · split at h
      case _ hcan =>
        simp only [Option.some.injEq, Prod.mk.injEq] at h
        obtain ⟨h1, h2, h3⟩ := h
        rw [← h1, ← h2, ← h3]
        exact hcan
      case _ hcan => simp at h
    · simp at h
  case _ => simp at h

theorem tryPlaceWord_canPlace {g : WorkGrid} {size : Nat} {cur : Word}
    {pw : PlacedWord} {r c : Int} {d : Direction}
    (h : tryPlaceWord g size cur pw = some (r, c, d)) :
    canPlaceWord g size cur r c d = true := by
  obtain ⟨j, _, hj⟩ := findSome?_some h
  obtain ⟨k, _, hk⟩ := findSome?_some hj
  exact tryPlaceAt_canPlace hk

theorem tryPlace_canPlace {g : WorkGrid} {size : Nat} {cur : Word} :
    ∀ {placed : List PlacedWord} {r c : Int} {d : Direction},
    tryPlace g size cur placed = some (r, c, d) →
    canPlaceWord g size cur r c d = true := by
  intro placed
  induction placed with
  | nil =>
    intro r c d h
    simp [tryPlace] at h
  | cons pw rest ih =>
    intro r c d h
    unfold tryPlace at h
    split at h
    case _ t heq =>
      cases h
      exact tryPlaceWord_canPlace heq
    case _ heq => exact ih h

theorem cellRow_shift (r : Int) (dir : Direction) (i : Nat) :
    cellRow (cellRow r dir 1) dir i = cellRow r dir (i + 1) := by
  cases dir
  · rfl
  · simp only [cellRow]
    omega

theorem cellCol_shift (c : Int) (dir : Direction) (i : Nat) :
    cellCol (cellCol c dir 1) dir i = cellCol c dir (i + 1) := by
  cases dir
  · simp only [cellCol]
    omega
  · rfl

theorem cell_ne_of_index_ne (r c : Int) (dir : Direction) {i k : Nat}
    (hik : i ≠ k) :
    ¬(cellRow r dir i = cellRow r dir k ∧
      cellCol c dir i = cellCol c dir k) := by
  cases dir
  · intro hc
    rcases hc with ⟨h1, h2⟩
    simp only [cellCol] at h2
    omega
  · intro hc
    rcases hc with ⟨h1, h2⟩
    simp only [cellRow] at h1
    omega

theorem placeWordOn_off (g : WorkGrid) :
    ∀ (word : Word) (r c : Int) (dir : Direction) (x y : Int),
    (∀ i, i < word.length →
      ¬(x = cellRow r dir i ∧ y = cellCol c dir i)) →
    placeWordOn g word r c dir x y = g x y := by
  intro word
  induction word generalizing g with
  | nil => intro r c dir x y _; rfl
  | cons ch rest ih =>
    intro r c dir x y hoff
    show placeWordOn (setCell g r c ch) rest (cellRow r dir 1)
      (cellCol c dir 1) dir x y = g x y
    rw [ih (setCell g r c ch) (cellRow r dir 1) (cellCol c dir 1) dir x y ?_]
    · show (if x = r ∧ y = c then some ch else g x y) = g x y
      rw [if_neg ?_]
      have h0 := hoff 0 (by simp)
      intro hc
      apply h0
      rcases hc with ⟨h1, h2⟩
      constructor
      · cases dir
        · exact h1
        · rw [h1]
          simp only [cellRow]
          omega
      · cases dir
        · rw [h2]
          simp only [cellCol]
          omega
        · exact h2
    · intro i hi
      rw [cellRow_shift, cellCol_shift]
      exact hoff (i + 1) (by simpa using Nat.succ_lt_succ hi)

theorem placeWordOn_on (g : WorkGrid) :
    ∀ (word : Word) (r c : Int) (dir : Direction) (i : Nat), i < word.length →
    placeWordOn g word r c dir (cellRow r dir i) (cellCol c dir i) =
      word.get? i := by
  intro word
  induction word generalizing g with
  | nil => intro r c dir i hi; simp at hi
  | cons ch rest ih =>
    intro r c dir i hi
    show placeWordOn (setCell g r c ch) rest (cellRow r dir 1)
      (cellCol c dir 1) dir _ _ = _
    cases i with
    | zero =>
      rw [placeWordOn_off (setCell g r c ch) rest _ _ dir _ _ ?_]
      · show (if cellRow r dir 0 = r ∧ cellCol c dir 0 = c then some ch
            else g _ _) = some ch
        rw [if_pos (by cases dir <;> simp [cellRow, cellCol])]

      · intro k hk
        rw [cellRow_shift, cellCol_shift]
        exact cell_ne_of_index_ne r c dir (by omega)
    | succ j =>
      have hcr : cellRow r dir (j + 1) = cellRow (cellRow r dir 1) dir j :=
        (cellRow_shift r dir j).symm
      have hcc : cellCol c dir (j + 1) = cellCol (cellCol c dir 1) dir j :=
        (cellCol_shift c dir j).symm
      rw [hcr, hcc]
      exact ih (setCell g r c ch) (cellRow r dir 1) (cellCol c dir 1) dir j
        (by simpa using Nat.lt_of_succ_lt_succ hi)

theorem canPlaceWord_cells {g : WorkGrid} {size : Nat} {word : Word}
    {row col : Int} {dir : Direction}
    (h : canPlaceWord g size word row col dir = true) (i : Nat)
    (hi : i < word.length) :
    isValidCell size (cellRow row dir i) (cellCol col dir i) = true ∧
    (g (cellRow row dir i) (cellCol col dir i) = none ∨
      g (cellRow row dir i) (cellCol col dir i) = word.get? i) := by
  unfold canPlaceWord at h
  split at h
  · simp at h
  · rw [Bool.and_eq_true] at h
    have hall := h.2
    rw [List.all_eq_true] at hall
    have hcell := hall i (List.mem_range.mpr hi)
    unfold cellCheck at hcell
    split at hcell
    · simp at hcell
    case _ hvalid =>
      have hv : isValidCell size (cellRow row dir i) (cellCol col dir i)
          = true := by
        rcases Bool.eq_false_or_eq_true
          (isValidCell size (cellRow row dir i) (cellCol col dir i)) with hb | hb
        · exact hb
        · refine absurd ?_ hvalid
          rw [hb]
          rfl
      refine ⟨hv, ?_⟩
      split at hcell
      case _ hnone => exact Or.inl hnone
      case _ ch hsome =>
        rw [decide_eq_true_eq] at hcell
        rw [hsome, hcell]
        exact Or.inr rfl

theorem gridInv_place {size : Nat} {g : WorkGrid} {placed : List PlacedWord}
    {word clue : Word} {r c : Int} {dir : Direction} {n : Nat}
    (hinv : GridInv size g placed)
    (hcan : canPlaceWord g size word r c dir = true) :
    GridInv size (placeWordOn g word r c dir)
      (placed ++ [{ word := word, clue := clue, row := r, col := c, direction := dir, number := n }]) := by
  intro pw hpw i hi
  rcases List.mem_append.mp hpw with hold | hnew
  · obtain ⟨hval, hchar⟩ := hinv pw hold i hi
    refine ⟨hval, ?_⟩
    by_cases hc : ∃ k, k < word.length ∧
        cellRow pw.row pw.direction i = cellRow r dir k ∧
        cellCol pw.col pw.direction i = cellCol c dir k
    · obtain ⟨k, hk, hr, hcc⟩ := hc
      rw [hr, hcc, placeWordOn_on g word r c dir k hk]
      obtain ⟨hvk, hgk⟩ := canPlaceWord_cells hcan k hk
      rcases hgk with hgk | hgk
      · rw [hr, hcc, hgk] at hchar
        have hsome : (pw.word.get? i).isSome := by
          cases hg : pw.word.get? i with
          | none =>
            rw [List.get?_eq_none] at hg
            omega
          | some _ => rfl
        rw [← hchar] at hsome
        simp at hsome
      · rw [hr, hcc, hgk] at hchar
        exact hchar
    · push_neg at hc
      rw [placeWordOn_off g word r c dir _ _ ?_]
      · exact hchar
      · intro k hk hck
        exact (hc k hk) hck.1 hck.2
  · simp only [List.mem_singleton] at hnew
    subst hnew
    obtain ⟨hvk, _⟩ := canPlaceWord_cells hcan i hi
    exact ⟨hvk, placeWordOn_on g word r c dir i hi⟩

theorem placeLoop_inv (size : Nat) :
    ∀ (ws : List WordInput) (g : WorkGrid) (placed : List PlacedWord)
    (unused : List Word), GridInv size g placed →
    GridInv size (placeLoop size ws g placed unused).1
      (placeLoop size ws g placed unused).2.1 := by
  intro ws
  induction ws with
  | nil =>
    intro g placed unused hinv
    exact hinv
  | cons cur rest ih =>
    intro g placed unused hinv
    unfold placeLoop
    split
    case _ r c d heq =>
      exact ih _ _ _ (gridInv_place hinv (tryPlace_canPlace heq))
    case _ heq =>
      exact ih _ _ _ hinv

theorem gridInv_empty (size : Nat) : GridInv size emptyWorkGrid [] := by
  intro pw hpw
  simp at hpw

theorem crosswordPlaceAll_inv (size : Nat) (anchor : WordInput)
    (restSorted : List WordInput) :
    GridInv size (crosswordPlaceAll size anchor restSorted).1
      (crosswordPlaceAll size anchor restSorted).2.1 := by
  unfold crosswordPlaceAll
  split
  case _ hcan =>
    refine placeLoop_inv size restSorted _ _ _ ?_
    have hstep := @gridInv_place size emptyWorkGrid [] anchor.word anchor.clue
      (startRowOf size) (startColOf size anchor.word.length) Direction.across 0
      (gridInv_empty size) hcan
    simpa using hstep
  case _ =>
    exact placeLoop_inv size restSorted _ _ _ (gridInv_empty size)

theorem buildFinalGrid_at {size : Nat} {g : WorkGrid}
    {nums : List ((Int × Int) × Nat)} {r c : Int}
    (h : isValidCell size r c = true) :
    gridCellAt (buildFinalGrid size g nums) r c =
      some { char := g r c, isActive := (g r c).isSome,
             number := assocFind nums (r, c) } := by
  unfold isValidCell at h
  simp only [Bool.and_eq_true, decide_eq_true_eq] at h
  obtain ⟨⟨⟨h1, h2⟩, h3⟩, h4⟩ := h
  unfold gridCellAt
  rw [if_pos ⟨h1, h3⟩]
  have hrn : r.toNat < size := by omega
  have hcn : c.toNat < size := by omega
  unfold buildFinalGrid
  rw [List.get?_eq_getElem?, List.getElem?_map, List.getElem?_range hrn,
    Option.map_some', Option.some_bind', List.get?_eq_getElem?,
    List.getElem?_map, List.getElem?_range hcn, Option.map_some']
  have hr : ((r.toNat : Nat) : Int) = r := Int.toNat_of_nonneg h1
  have hc : ((c.toNat : Nat) : Int) = c := Int.toNat_of_nonneg h3
  rw [hr, hc]

/-- C4: in every generated crossword grid, every cell covered by a placed
word holds exactly the character that word contributes (a mismatching
placement is rejected, never overwritten), and such cells are active. -/
theorem claim_crossword_char_consistency (size : Nat)
    (inputs : List WordInput) (σ : Rng) (res : GenerationResult)
    (hres : crosswordGenerate size inputs σ = res) :
    ∀ pw ∈ res.placedWords, ∀ i, i < pw.word.length →
    ∃ cell, gridCellAt res.grid (cellRow pw.row pw.direction i)
        (cellCol pw.col pw.direction i) = some cell ∧
      cell.char = pw.word.get? i ∧ cell.isActive = true := by
  intro pw hpw i hi
  unfold crosswordGenerate at hres
  split at hres
  · rw [← hres] at hpw
    simp at hpw
  · split at hres
    case _ ri σ2 heqr =>
      split at hres
      case _ hbig =>
        rw [← hres] at hpw
        simp at hpw
      case _ hbig =>
        rw [← hres] at hpw ⊢
        have hinv := crosswordPlaceAll_inv size
          (inputs.getD ri { word := [], clue := [] })
          (sortB (fun a b => b.word.length ≤ a.word.length)
            (inputs.eraseIdx ri))
        simp only [crosswordFinish, List.mem_map] at hpw
        obtain ⟨pw0, hpw0, rfl⟩ := hpw
        have hi0 : i < pw0.word.length := hi
        obtain ⟨hval, hchar⟩ := hinv pw0 hpw0 i hi0
        refine ⟨_, buildFinalGrid_at hval, ?_, ?_⟩
        · exact hchar
        · show ((crosswordPlaceAll size (inputs.getD ri { word := [], clue := [] })
            (sortB (fun a b => b.word.length ≤ a.word.length)
              (inputs.eraseIdx ri))).1
            (cellRow pw0.row pw0.direction i)
            (cellCol pw0.col pw0.direction i)).isSome = true
          rw [hchar]
          cases hg : pw0.word.get? i with
          | none =>
            rw [List.get?_eq_none] at hg
            omega
          | some ch => rfl

/-- Witness for C4 at a concrete input. -/
theorem claim_crossword_char_consistency_witness :
    ∃ cell, gridCellAt (crosswordGenerate 9 sampleCwInputs []).grid
        (cellRow 4 Direction.across 0) (cellCol 2 Direction.across 0) =
        some cell ∧
      cell.char = "APPLE".toList.get? 0 ∧ cell.isActive = true := by
  have hmem : ({ word := "APPLE".toList, clue := "c1".toList, row := 4, col := 2, direction := Direction.across, number := 2 } : PlacedWord) ∈ (crosswordGenerate 9 sampleCwInputs []).placedWords := by
    decide
  exact claim_crossword_char_consistency 9 sampleCwInputs [] _ rfl _ hmem 0
    (by decide)

theorem dedupFirstAux_congr [DecidableEq α] {s s' : List α}
    (hss : ∀ x, x ∈ s ↔ x ∈ s') :
    ∀ (l : List α), dedupFirstAux s l = dedupFirstAux s' l := by
  intro l
  induction l generalizing s s' with
  | nil => rfl
  | cons x xs ih =>
    by_cases hx : x ∈ s
    · rw [dedupFirstAux, if_pos hx, dedupFirstAux, if_pos ((hss x).mp hx),
        ih hss]
    · rw [dedupFirstAux, if_neg hx, dedupFirstAux,
        if_neg (fun hc => hx ((hss x).mpr hc))]
      refine congrArg (x :: ·) (ih ?_)
      intro y
      simp only [List.mem_cons]
      constructor
      · rintro (rfl | hy)
        · exact Or.inl rfl
        · exact Or.inr ((hss y).mp hy)
      · rintro (rfl | hy)
        · exact Or.inl rfl
        · exact Or.inr ((hss y).mpr hy)

theorem numFold_eq :
    ∀ (l : List (Int × Int)) (acc : List ((Int × Int) × Nat)) (ctr : Nat),
    numFold l acc ctr =
      acc ++ indexedFrom ctr (dedupFirstAux (acc.map Prod.fst) l) := by
  intro l
  induction l with
  | nil =>
    intro acc ctr
    rw [numFold]
    show acc = acc ++ indexedFrom ctr []
    rw [indexedFrom, List.append_nil]
  | cons p rest ih =>
    intro acc ctr
    by_cases hp : p ∈ acc.map Prod.fst
    · rw [numFold, if_pos hp, ih, dedupFirstAux, if_pos hp]
    · rw [numFold, if_neg hp, ih, dedupFirstAux, if_neg hp]
      have hkeys : (acc ++ [(p, ctr)]).map Prod.fst =
          acc.map Prod.fst ++ [p] := by
        simp
      rw [hkeys]
      have hcongr : dedupFirstAux (acc.map Prod.fst ++ [p]) rest =
          dedupFirstAux (p :: acc.map Prod.fst) rest := by
        refine dedupFirstAux_congr ?_ rest
        intro y
        simp only [List.mem_append, List.mem_cons, List.not_mem_nil, or_false]
        exact or_comm
      rw [hcongr]
      show acc ++ [(p, ctr)] ++ indexedFrom (ctr + 1) _ =
        acc ++ (p, ctr) :: indexedFrom (ctr + 1) _
      rw [List.append_assoc]
      rfl

theorem buildNumMap_eq (placed : List PlacedWord) :
    buildNumMap placed = indexedFrom 1
      (dedupFirst (sortB rowMajorLE (placed.map (fun w => (w.row, w.col))))) := by
  unfold buildNumMap
  rw [numFold_eq]
  rfl

theorem assocFind_indexedFrom {ds : List (Int × Int)} :
    ∀ {k : Nat} {p : Int × Int} (n : Nat), ds.Nodup → ds.get? k = some p →
    assocFind (indexedFrom n ds) p = some (n + k) := by
  induction ds with
  | nil =>
    intro k p n _ h
    simp at h
  | cons q rest ih =>
    intro k p n hnd h
    rcases List.nodup_cons.mp hnd with ⟨hq, hndr⟩
    cases k with
    | zero =>
      simp only [List.get?_cons_zero, Option.some.injEq] at h
      rw [indexedFrom, assocFind, if_pos h.symm, Nat.add_zero]
    | succ j =>
      simp only [List.get?_cons_succ] at h
      have hpq : p ≠ q := by
        intro hEq
        subst hEq
        exact hq (List.get?_mem h)
      rw [indexedFrom, assocFind, if_neg hpq, ih (n + 1) hndr h]
      congr 1
      omega

theorem rowMajorLE_total (a b : Int × Int) :
    rowMajorLE a b = true ∨ rowMajorLE b a = true := by
  unfold rowMajorLE
  simp only [Bool.or_eq_true, Bool.and_eq_true, decide_eq_true_eq]
  omega

theorem rowMajorLE_trans (a b c : Int × Int) (h1 : rowMajorLE a b = true)
    (h2 : rowMajorLE b c = true) : rowMajorLE a c = true := by
  unfold rowMajorLE at *
  simp only [Bool.or_eq_true, Bool.and_eq_true, decide_eq_true_eq] at *
  omega

theorem rowMajorLT_of_le_of_ne {a b : Int × Int}
    (hle : rowMajorLE a b = true) (hne : a ≠ b) : RowMajorLT a b := by
  unfold rowMajorLE at hle
  unfold RowMajorLT
  simp only [Bool.or_eq_true, Bool.and_eq_true, decide_eq_true_eq] at hle
  have hne2 : ¬(a.1 = b.1 ∧ a.2 = b.2) := by
    intro hc
    exact hne (Prod.ext hc.1 hc.2)
  omega

theorem rowMajorLT_asymm {a b : Int × Int} (h1 : RowMajorLT a b)
    (h2 : RowMajorLT b a) : False := by
  unfold RowMajorLT at *
  omega

theorem rowMajorLT_irrefl (a : Int × Int) : ¬ RowMajorLT a a := by
  unfold RowMajorLT
  omega

theorem numbering_ds_pairwise (starts : List (Int × Int)) :
    (dedupFirst (sortB rowMajorLE starts)).Pairwise RowMajorLT := by
  have hsorted : (sortB rowMajorLE starts).Pairwise
      (fun x y => rowMajorLE x y = true) :=
    sortB_pairwise rowMajorLE rowMajorLE_total rowMajorLE_trans starts
  have hle : (dedupFirst (sortB rowMajorLE starts)).Pairwise
      (fun x y => rowMajorLE x y = true) :=
    List.Pairwise.sublist (sublist_dedupFirst _) hsorted
  have hne : (dedupFirst (sortB rowMajorLE starts)).Pairwise (· ≠ ·) :=
    nodup_dedupFirst _
  exact (hle.and hne).imp (fun h => rowMajorLT_of_le_of_ne h.1 h.2)

theorem renumber_numbering (placed : List PlacedWord) :
    (∀ p ∈ placed.map (fun w => { w with number :=
        (assocFind (buildNumMap placed) (w.row, w.col)).getD 0 }),
      ∀ q ∈ placed.map (fun w => { w with number :=
        (assocFind (buildNumMap placed) (w.row, w.col)).getD 0 }),
      ((p.row, p.col) = (q.row, q.col) → p.number = q.number) ∧
      (RowMajorLT (p.row, p.col) (q.row, q.col) → p.number < q.number)) ∧
    (∀ p ∈ placed.map (fun w => { w with number :=
        (assocFind (buildNumMap placed) (w.row, w.col)).getD 0 }),
      1 ≤ p.number) ∧
    (∀ n, 1 ≤ n → n ≤ (dedupFirst (sortB rowMajorLE
        (placed.map (fun w => (w.row, w.col))))).length →
      ∃ p ∈ placed.map (fun w => { w with number :=
        (assocFind (buildNumMap placed) (w.row, w.col)).getD 0 }),
        p.number = n) := by
  have hnum := buildNumMap_eq placed
  have hndds : (dedupFirst (sortB rowMajorLE
      (placed.map (fun w => (w.row, w.col))))).Nodup := nodup_dedupFirst _
  have hpair := numbering_ds_pairwise (placed.map (fun w => (w.row, w.col)))
  have key : ∀ w : PlacedWord, w ∈ placed → ∃ k,
      (dedupFirst (sortB rowMajorLE
        (placed.map (fun w => (w.row, w.col))))).get? k = some (w.row, w.col) ∧
      assocFind (buildNumMap placed) (w.row, w.col) = some (1 + k) := by
    intro w hw
    have hmem : ((w.row, w.col) : Int × Int) ∈ dedupFirst (sortB rowMajorLE
        (placed.map (fun w => (w.row, w.col)))) := by
      rw [mem_dedupFirst, (sortB_perm rowMajorLE _).mem_iff]
      exact List.mem_map.mpr ⟨w, hw, rfl⟩
    obtain ⟨k, hk⟩ := List.get?_of_mem hmem
    refine ⟨k, hk, ?_⟩
    rw [hnum]
    exact assocFind_indexedFrom 1 hndds hk
  have mono : ∀ (k1 k2 : Nat) (p1 p2 : Int × Int),
      (dedupFirst (sortB rowMajorLE
        (placed.map (fun w => (w.row, w.col))))).get? k1 = some p1 →
      (dedupFirst (sortB rowMajorLE
        (placed.map (fun w => (w.row, w.col))))).get? k2 = some p2 →
      RowMajorLT p1 p2 → k1 < k2 := by
    intro k1 k2 p1 p2 h1 h2 hlt
    rcases Nat.lt_trichotomy k1 k2 with h | h | h
    · exact h
    · subst h
      rw [h1] at h2
      injection h2 with h2
      subst h2
      exact absurd hlt (rowMajorLT_irrefl p1)
    · obtain ⟨hl1, hg1⟩ := List.get?_eq_some.mp h1
      obtain ⟨hl2, hg2⟩ := List.get?_eq_some.mp h2
      have hRT := (List.pairwise_iff_get.mp hpair) ⟨k2, hl2⟩ ⟨k1, hl1⟩ h
      rw [hg1, hg2] at hRT
      exact absurd hRT (fun hc => rowMajorLT_asymm hlt hc)
  refine ⟨?_, ?_, ?_⟩
  · intro p hp q hq
    obtain ⟨w1, hw1, rfl⟩ := List.mem_map.mp hp
    obtain ⟨w2, hw2, rfl⟩ := List.mem_map.mp hq
    constructor
    · intro hpq
      show (assocFind (buildNumMap placed) (w1.row, w1.col)).getD 0 =
        (assocFind (buildNumMap placed) (w2.row, w2.col)).getD 0
      have hpq2 : ((w1.row, w1.col) : Int × Int) = (w2.row, w2.col) := hpq
      rw [hpq2]
    · intro hlt
      obtain ⟨k1, hk1, ha1⟩ := key w1 hw1
      obtain ⟨k2, hk2, ha2⟩ := key w2 hw2
      have hlt2 : RowMajorLT (w1.row, w1.col) (w2.row, w2.col) := hlt
      have hkk := mono k1 k2 _ _ hk1 hk2 hlt2
      show (assocFind (buildNumMap placed) (w1.row, w1.col)).getD 0 <
        (assocFind (buildNumMap placed) (w2.row, w2.col)).getD 0
      rw [ha1, ha2]
      simpa using hkk
  · intro p hp
    obtain ⟨w, hw, rfl⟩ := List.mem_map.mp hp
    obtain ⟨k, hk, ha⟩ := key w hw
    show 1 ≤ (assocFind (buildNumMap placed) (w.row, w.col)).getD 0
    rw [ha]
    simp
  · intro n h1 h2
    cases hg : (dedupFirst (sortB rowMajorLE
        (placed.map (fun w => (w.row, w.col))))).get? (n - 1) with
    | none =>
      rw [List.get?_eq_none] at hg
      omega
    | some p =>
      have hpmem : p ∈ dedupFirst (sortB rowMajorLE
          (placed.map (fun w => (w.row, w.col)))) := List.get?_mem hg
      have hpmem2 : p ∈ placed.map (fun w => (w.row, w.col)) := by
        rw [mem_dedupFirst, (sortB_perm rowMajorLE _).mem_iff] at hpmem
        exact hpmem
      obtain ⟨w, hw, hstart⟩ := List.mem_map.mp hpmem2
      refine ⟨{ w with number :=
        (assocFind (buildNumMap placed) (w.row, w.col)).getD 0 },
        List.mem_map.mpr ⟨w, hw, rfl⟩, ?_⟩
      show (assocFind (buildNumMap placed) (w.row, w.col)).getD 0 = n
      have hget2 : (dedupFirst (sortB rowMajorLE
          (placed.map (fun w => (w.row, w.col))))).get? (n - 1) =
          some (w.row, w.col) := by
        rw [hstart]
        exact hg
      rw [hnum, assocFind_indexedFrom 1 hndds hget2]
      show 1 + (n - 1) = n
      omega

/-- C8: crossword clue numbers are sequential from 1 over distinct start
cells: words sharing a start cell share a number, numbers are strictly
increasing in row-major order of start cells, and every value from 1 to
the distinct-start-cell count is assigned. -/
theorem claim_crossword_numbering (size : Nat) (inputs : List WordInput)
    (σ : Rng) (res : GenerationResult)
    (hres : crosswordGenerate size inputs σ = res) :
    (∀ p ∈ res.placedWords, ∀ q ∈ res.placedWords,
      ((p.row, p.col) = (q.row, q.col) → p.number = q.number) ∧
      (RowMajorLT (p.row, p.col) (q.row, q.col) → p.number < q.number)) ∧
    (∀ p ∈ res.placedWords, 1 ≤ p.number) ∧
    (∀ n, 1 ≤ n → n ≤ (dedupFirst (sortB rowMajorLE
        (res.placedWords.map (fun w => (w.row, w.col))))).length →
      ∃ p ∈ res.placedWords, p.number = n) := by
  unfold crosswordGenerate at hres
  split at hres
  · rw [← hres]
    refine ⟨?_, ?_, ?_⟩
    · intro p hp
      simp at hp
    · intro p hp
      simp at hp
    · intro n h1 h2
      simp [sortB, dedupFirst, dedupFirstAux] at h2
      omega
  · split at hres
    case _ ri σ2 heqr =>
      split at hres
      case _ hbig =>
        rw [← hres]
        refine ⟨?_, ?_, ?_⟩
        · intro p hp
          simp at hp
        · intro p hp
          simp at hp
        · intro n h1 h2
          simp [sortB, dedupFirst, dedupFirstAux] at h2
          omega
      case _ hbig =>
        rw [← hres]
        have hstarts : ((crosswordFinish size (crosswordPlaceAll size
            (inputs.getD ri { word := [], clue := [] })
            (sortB (fun a b => b.word.length ≤ a.word.length)
              (inputs.eraseIdx ri)))).placedWords).map
              (fun w => (w.row, w.col)) =
            ((crosswordPlaceAll size (inputs.getD ri { word := [], clue := [] })
            (sortB (fun a b => b.word.length ≤ a.word.length)
              (inputs.eraseIdx ri))).2.1).map (fun w => (w.row, w.col)) := by
          show ((crosswordPlaceAll size (inputs.getD ri { word := [], clue := [] })
            (sortB (fun a b => b.word.length ≤ a.word.length)
              (inputs.eraseIdx ri))).2.1.map _).map _ = _
          rw [List.map_map]
          exact List.map_congr_left (fun a _ => rfl)
        rw [hstarts]
        exact renumber_numbering (crosswordPlaceAll size
          (inputs.getD ri { word := [], clue := [] })
          (sortB (fun a b => b.word.length ≤ a.word.length)
            (inputs.eraseIdx ri))).2.1

/-- Witness for C8 at a concrete input. -/
theorem claim_crossword_numbering_witness :
    ∃ p ∈ (crosswordGenerate 9 sampleCwInputs []).placedWords,
      p.number = 1 :=
  (claim_crossword_numbering 9 sampleCwInputs [] _ rfl).2.2 1 (by decide)
    (by decide)

/-- Soundness of the option loop: a successful try yields an unused option
of the node together with a successful continuation result. -/
theorem btTryWith_sound
    (next : List Word → Rng → Option (List (String × Word)) × Rng)
    (P : List Word → List (String × Word) → Prop)
    (hnext : ∀ u σ a σ2, next u σ = (some a, σ2) → P u a)
    (key : String) (used : List Word) :
    ∀ (opts : List Word) (σ : Rng) (asgn : List (String × Word)) (σ2 : Rng),
      btTryWith next key used opts σ = (some asgn, σ2) →
      ∃ w asgn2, asgn = (key, w) :: asgn2 ∧ w ∈ opts ∧ w ∉ used ∧
        P (used ++ [w]) asgn2 := by
  intro opts
  induction opts with
  | nil =>
    intro σ asgn σ2 h
    exact absurd h (by simp [btTryWith])
  | cons w ws ih =>
    intro σ asgn σ2 h
    rw [btTryWith] at h
    by_cases hw : w ∈ used
    · rw [if_pos hw] at h
      obtain ⟨w2, asgn2, h1, h2, h3, h4⟩ := ih σ asgn σ2 h
      exact ⟨w2, asgn2, h1, List.mem_cons_of_mem _ h2, h3, h4⟩
    · rw [if_neg hw] at h
      split at h
      next a σa heq =>
        simp only [Prod.mk.injEq, Option.some.injEq] at h
        obtain ⟨h5, h6⟩ := h
        subst h5
        exact ⟨w, a, rfl, List.mem_cons_self w ws, hw, hnext _ _ _ _ heq⟩
      next σa heq =>
        obtain ⟨w2, asgn2, h1, h2, h3, h4⟩ := ih σa asgn σ2 h
        exact ⟨w2, asgn2, h1, List.mem_cons_of_mem _ h2, h3, h4⟩

/-- Soundness of the backtracking search: a successful assignment pairs the
nodes with options of their own lists in order, never reuses a word of the
incoming used set, and assigns pairwise distinct words. -/
theorem btAssign_sound :
    ∀ (l : List (TTCandidate × List Word)) (used : List Word) (σ : Rng)
      (asgn : List (String × Word)) (σ2 : Rng),
      btAssign l used σ = (some asgn, σ2) →
      List.Forall₂ btR l asgn ∧ (∀ p ∈ asgn, p.2 ∉ used) ∧
        (asgn.map Prod.snd).Nodup := by
  intro l
  induction l with
  | nil =>
    intro used σ asgn σ2 h
    simp only [btAssign, Prod.mk.injEq, Option.some.injEq] at h
    obtain ⟨h1, h2⟩ := h
    subst h1
    exact ⟨List.Forall₂.nil, fun p hp => absurd hp (List.not_mem_nil p), List.nodup_nil⟩
  | cons e rest ih =>
    intro used σ asgn σ2 h
    obtain ⟨c, opts⟩ := e
    rw [btAssign] at h
    split at h
    next sh σ1 heq =>
      have hmem : ∀ w ∈ sh, w ∈ opts := by
        intro w hw
        have hp := fisherYates_perm opts σ
        rw [heq] at hp
        exact hp.mem_iff.mp hw
      obtain ⟨w, asgn2, h1, h2, h3, h4⟩ :=
        btTryWith_sound (btAssign rest)
          (fun u a => List.Forall₂ btR rest a ∧ (∀ p ∈ a, p.2 ∉ u) ∧
            (a.map Prod.snd).Nodup)
          (fun u σa a σb hh => ih u σa a σb hh) c.key used sh σ1 asgn σ2 h
      obtain ⟨hF, hU, hN⟩ := h4
      subst h1
      refine ⟨List.Forall₂.cons ⟨rfl, hmem w h2⟩ hF, ?_, ?_⟩
      · intro p hp
        rcases List.mem_cons.mp hp with hp1 | hp2
        · subst hp1
          exact h3
        · intro hc
          exact (hU p hp2) (List.mem_append_left _ hc)
      · rw [List.map_cons]
        refine List.nodup_cons.mpr ⟨?_, hN⟩
        intro hwc
        obtain ⟨p, hp, hpw⟩ := List.mem_map.mp hwc
        refine (hU p hp) ?_
        rw [hpw]
        exact List.mem_append_right _ (List.mem_singleton.mpr rfl)

/-- A successful key lookup locates an entry of the assignment list. -/
theorem lookupAssign_mem :
    ∀ (asgn : List (String × Word)) (k : String) (w : Word),
      lookupAssign asgn k = some w → (k, w) ∈ asgn := by
  intro asgn
  induction asgn with
  | nil =>
    intro k w h
    exact absurd h (by simp [lookupAssign])
  | cons p rest ih =>
    intro k w h
    obtain ⟨k2, w2⟩ := p
    rw [lookupAssign] at h
    by_cases hk : k = k2
    · rw [if_pos hk] at h
      obtain rfl : w2 = w := Option.some.inj h
      rw [hk]
      exact List.mem_cons_self _ _
    · rw [if_neg hk] at h
      exact List.mem_cons_of_mem _ (ih k w h)

/-- A key listed among the assignment keys can be looked up. -/
theorem lookupAssign_isSome :
    ∀ (asgn : List (String × Word)) (k : String),
      k ∈ asgn.map Prod.fst → ∃ w, lookupAssign asgn k = some w := by
  intro asgn
  induction asgn with
  | nil =>
    intro k h
    exact absurd h (List.not_mem_nil k)
  | cons p rest ih =>
    intro k h
    obtain ⟨k2, w2⟩ := p
    by_cases hk : k = k2
    · exact ⟨w2, by rw [lookupAssign, if_pos hk]⟩
    · rcases List.mem_cons.mp h with h1 | h2
      · exact absurd h1 hk
      · obtain ⟨w, hw⟩ := ih k h2
        exact ⟨w, by rw [lookupAssign, if_neg hk]; exact hw⟩

/-- The keys of an assignment produced against a node list are exactly the
node keys in order. -/
theorem forall2_btR_map_fst {l : List (TTCandidate × List Word)}
    {a : List (String × Word)} (h : List.Forall₂ btR l a) :
    a.map Prod.fst = l.map (fun e => e.1.key) := by
  induction h with
  | nil => rfl
  | cons hR hF ih =>
    rw [List.map_cons, List.map_cons, ih, hR.1]

/-- Every assignment entry is related to some node of the list. -/
theorem forall2_btR_mem {l : List (TTCandidate × List Word)}
    {a : List (String × Word)} (h : List.Forall₂ btR l a) :
    ∀ p ∈ a, ∃ e ∈ l, btR e p := by
  induction h with
  | nil =>
    intro p hp
    exact absurd hp (List.not_mem_nil p)
  | cons hR hF ih =>
    intro p hp
    rcases List.mem_cons.mp hp with rfl | hp2
    · exact ⟨_, List.mem_cons_self _ _, hR⟩
    · obtain ⟨e, he, hbe⟩ := ih p hp2
      exact ⟨e, List.mem_cons_of_mem _ he, hbe⟩

/-- Soundness of findDistinctAssignment: distinct assigned words, a word for
every candidate key, and every assigned word both matches its candidate and
is available. -/
theorem findDistinctAssignment_sound
    {candidates : List TTCandidate} {avail : List Word} {σ : Rng}
    {asgn : List (String × Word)} {σ2 : Rng}
    (h : findDistinctAssignment candidates avail σ = (some asgn, σ2)) :
    (asgn.map Prod.snd).Nodup ∧
    (∀ c ∈ candidates, ∃ w, lookupAssign asgn c.key = some w) ∧
    (∀ p ∈ asgn, p.2 ∈ avail) := by
  rw [findDistinctAssignment] at h
  split at h
  · exact absurd h (by simp)
  · obtain ⟨hF, hU, hN⟩ := btAssign_sound _ [] σ asgn σ2 h
    refine ⟨hN, ?_, ?_⟩
    · intro c hc
      apply lookupAssign_isSome
      rw [forall2_btR_map_fst hF]
      refine List.mem_map.mpr ?_
      exact ⟨(c, c.matchingWords.filter (fun w => decide (w ∈ avail))),
        (sortB_perm _ _).mem_iff.mpr (List.mem_map_of_mem _ hc), rfl⟩
    · intro p hp
      obtain ⟨e, he, hR⟩ := forall2_btR_mem hF p hp
      have he2 := (sortB_perm _ _).mem_iff.mp he
      obtain ⟨c, hc, rfl⟩ := List.mem_map.mp he2
      exact of_decide_eq_true (List.mem_filter.mp hR.2).2

/-- Weighting decorates the candidates without reordering or dropping. -/
theorem weightCandidates_map_fst (profile : DifficultyProfile) (t : Nat) :
    ∀ (cs : List TTCandidate) (σ : Rng),
      (weightCandidates profile t cs σ).1.map Prod.fst = cs := by
  intro cs
  induction cs with
  | nil => intro σ; rfl
  | cons c rest ih =>
    intro σ
    rw [weightCandidates]
    cases hd : drawNat σ with
    | mk r σ1 =>
      cases hw : weightCandidates profile t rest σ1 with
      | mk tail σ2 =>
        simp only [List.map_cons]
        rw [ih σ1]

/-- The greedy selection loop keeps the picked keys pairwise distinct and
only adds candidates of the scanned list. -/
theorem pickLoop_sound (profile : DifficultyProfile) (boost t : Nat) :
    ∀ (ordered pick : List TTCandidate) (cov : List Word),
      (pick.map (fun c => c.key)).Nodup →
      ((pickLoop profile boost t ordered pick cov).map (fun c => c.key)).Nodup ∧
      ∀ c ∈ pickLoop profile boost t ordered pick cov, c ∈ pick ∨ c ∈ ordered := by
  intro ordered
  induction ordered with
  | nil =>
    intro pick cov h
    exact ⟨h, fun c hc => Or.inl hc⟩
  | cons c rest ih =>
    intro pick cov h
    rw [pickLoop]
    split_ifs with h1 h2 h3 h4
    · exact ⟨h, fun x hx => Or.inl hx⟩
    · obtain ⟨hn, hm⟩ := ih pick cov h
      exact ⟨hn, fun x hx => (hm x hx).imp id (List.mem_cons_of_mem c)⟩
    · obtain ⟨hn, hm⟩ := ih pick cov h
      exact ⟨hn, fun x hx => (hm x hx).imp id (List.mem_cons_of_mem c)⟩
    · obtain ⟨hn, hm⟩ := ih pick cov h
      exact ⟨hn, fun x hx => (hm x hx).imp id (List.mem_cons_of_mem c)⟩
    · have hkey : c.key ∉ pick.map (fun x => x.key) := by
        intro hk
        obtain ⟨sel, hs, hke⟩ := List.mem_map.mp hk
        exact h2 (List.any_eq_true.mpr ⟨sel, hs, beq_iff_eq.mpr hke⟩)
      have hn2 : ((pick ++ [c]).map (fun x => x.key)).Nodup := by
        rw [List.map_append]
        exact List.Nodup.append h (List.nodup_singleton _)
          (fun a ha hb => by
            simp only [List.map_cons, List.map_nil, List.mem_singleton] at hb
            subst hb
            exact hkey ha)
      obtain ⟨hn, hm⟩ := ih (pick ++ [c]) (cov ++ c.matchingWords) hn2
      refine ⟨hn, fun x hx => ?_⟩
      rcases hm x hx with hx1 | hx2
      · rcases List.mem_append.mp hx1 with hxa | hxb
        · exact Or.inl hxa
        · rw [List.mem_singleton] at hxb
          subst hxb
          exact Or.inr (List.mem_cons_self _ _)
      · exact Or.inr (List.mem_cons_of_mem c hx2)

/-- The fill loop keeps the picked keys pairwise distinct and only adds
candidates of the scanned list. -/
theorem fillLoop_sound :
    ∀ (ordered pick : List TTCandidate),
      (pick.map (fun c => c.key)).Nodup →
      ((fillLoop ordered pick).map (fun c => c.key)).Nodup ∧
      ∀ c ∈ fillLoop ordered pick, c ∈ pick ∨ c ∈ ordered := by
  intro ordered
  induction ordered with
  | nil =>
    intro pick h
    exact ⟨h, fun c hc => Or.inl hc⟩
  | cons c rest ih =>
    intro pick h
    rw [fillLoop]
    split_ifs with h1 h2
    · exact ⟨h, fun x hx => Or.inl hx⟩
    · obtain ⟨hn, hm⟩ := ih pick h
      exact ⟨hn, fun x hx => (hm x hx).imp id (List.mem_cons_of_mem c)⟩
    · have hkey : c.key ∉ pick.map (fun x => x.key) := by
        intro hk
        obtain ⟨sel, hs, hke⟩ := List.mem_map.mp hk
        exact h2 (List.any_eq_true.mpr ⟨sel, hs, beq_iff_eq.mpr hke⟩)
      have hn2 : ((pick ++ [c]).map (fun x => x.key)).Nodup := by
        rw [List.map_append]
        exact List.Nodup.append h (List.nodup_singleton _)
          (fun a ha hb => by
            simp only [List.map_cons, List.map_nil, List.mem_singleton] at hb
            subst hb
            exact hkey ha)
      obtain ⟨hn, hm⟩ := ih (pick ++ [c]) hn2
      refine ⟨hn, fun x hx => ?_⟩
      rcases hm x hx with hx1 | hx2
      · rcases List.mem_append.mp hx1 with hxa | hxb
        · exact Or.inl hxa
        · rw [List.mem_singleton] at hxb
          subst hxb
          exact Or.inr (List.mem_cons_self _ _)
      · exact Or.inr (List.mem_cons_of_mem c hx2)

/-- Soundness of pickConstraintSet: a returned selection has exactly 9
members, pairwise distinct keys, and draws from the candidate list. -/
theorem pickConstraintSet_sound
    {candidates : List TTCandidate} {profile : DifficultyProfile}
    {t : Nat} {σ : Rng} {sel : List TTCandidate} {σ2 : Rng}
    (h : pickConstraintSet candidates profile t σ = (some sel, σ2)) :
    sel.length = 9 ∧ (sel.map (fun c => c.key)).Nodup ∧
    ∀ c ∈ sel, c ∈ candidates := by
  rw [pickConstraintSet] at h
  split at h
  · exact absurd h (by simp)
  · split at h
    next weighted σw hw =>
      split at h
      · simp only [Prod.mk.injEq, Option.some.injEq] at h
        obtain ⟨h5, h6⟩ := h
        subst h5
        obtain ⟨hn1, hm1⟩ := pickLoop_sound profile (min 3 (t / 25)) t
          ((sortB (fun a b => b.2 ≤ a.2) weighted).map Prod.fst) [] []
          List.nodup_nil
        obtain ⟨hn2, hm2⟩ := fillLoop_sound
          ((sortB (fun a b => b.2 ≤ a.2) weighted).map Prod.fst) _ hn1
        rename_i h9
        refine ⟨?_, ?_, ?_⟩
        · rw [List.length_take]
          exact Nat.min_eq_left h9
        · rw [List.map_take]
          exact List.Nodup.sublist (List.take_sublist _ _) hn2
        · intro c hc
          have hc2 := List.mem_of_mem_take hc
          have hcand : c ∈ (sortB (fun a b => b.2 ≤ a.2) weighted).map Prod.fst := by
            rcases hm2 c hc2 with hca | hcb
            · rcases hm1 c hca with hcc | hcd
              · exact absurd hcc (List.not_mem_nil c)
              · exact hcd
            · exact hcb
          obtain ⟨pair, hpair, rfl⟩ := List.mem_map.mp hcand
          have hpw : pair ∈ weighted := (sortB_perm _ _).mem_iff.mp hpair
          have := weightCandidates_map_fst profile t candidates σ
          rw [hw] at this
          rw [← this]
          exact List.mem_map_of_mem _ hpw
      · exact absurd h (by simp)

/-- Soundness of materializeCells under a complete distinct assignment:
each produced cell is fronted by its assigned word, the fronted words are
pairwise distinct, and each is an available word. -/
theorem materializeCells_sound
    {sel : List TTCandidate} {asgn : List (String × Word)} {avail : List Word}
    (hnd : (asgn.map Prod.snd).Nodup)
    (hkeys : (sel.map (fun c => c.key)).Nodup)
    (hsome : ∀ c ∈ sel, ∃ w, lookupAssign asgn c.key = some w)
    (hmem : ∀ p ∈ asgn, p.2 ∈ avail) :
    (materializeCells sel asgn).length = sel.length ∧
    ((materializeCells sel asgn).map
      (fun cell => cell.matchingWords.headD [])).Nodup ∧
    ∀ cell ∈ materializeCells sel asgn, cell.matchingWords ≠ [] ∧
      cell.matchingWords.headD [] ∈ cell.matchingWords ∧
      cell.matchingWords.headD [] ∈ avail := by
  refine ⟨List.length_map _ _, ?_, ?_⟩
  · rw [materializeCells, List.map_map]
    refine List.Nodup.map_on ?_ (List.Nodup.of_map _ hkeys)
    intro c1 hc1 c2 hc2 hg
    obtain ⟨w1, hw1⟩ := hsome c1 hc1
    obtain ⟨w2, hw2⟩ := hsome c2 hc2
    simp only [Function.comp_apply, hw1, hw2, List.headD_cons] at hg
    have hm1 : (c1.key, w1) ∈ asgn := lookupAssign_mem _ _ _ hw1
    have hm2 : (c2.key, w2) ∈ asgn := lookupAssign_mem _ _ _ hw2
    have hpair : (c1.key, w1) = (c2.key, w2) :=
      List.inj_on_of_nodup_map hnd hm1 hm2 hg
    exact List.inj_on_of_nodup_map hkeys hc1 hc2 (congrArg Prod.fst hpair)
  · intro cell hcm
    rw [materializeCells] at hcm
    obtain ⟨c, hc, rfl⟩ := List.mem_map.mp hcm
    obtain ⟨w, hw⟩ := hsome c hc
    simp only [hw]
    refine ⟨List.cons_ne_nil _ _, ?_, ?_⟩
    · simp only [List.headD_cons]
      exact List.mem_cons_self _ _
    · simp only [List.headD_cons]
      exact hmem _ (lookupAssign_mem _ _ _ hw)

/-- enforceEasyCenter permutes the cells (it swaps at most one pair). -/
theorem enforceEasyCenter_perm (cells : List TTCell)
    (pool : List ProcessedWord) : Perm (enforceEasyCenter cells pool) cells := by
  rw [enforceEasyCenter]
  split_ifs with h1
  · exact List.Perm.refl _
  · split
    · exact List.Perm.refl _
    · split_ifs with h2
      · exact List.Perm.refl _
      · exact listSwap_perm _ _ _

/-- Soundness of the grid attempt loop: a returned grid has 9 cells with
pairwise distinct, available fronted words. -/
theorem gridAttemptLoop_sound
    {pool : List ProcessedWord} {difficulty : TicTacDifficulty}
    {candidates : List TTCandidate} {avail : List Word} {id : Nat} :
    ∀ (fuel : Nat) (σ : Rng) (g : TicTacGrid) (σ2 : Rng),
      gridAttemptLoop pool difficulty candidates avail id fuel σ = (some g, σ2) →
      g.cells.length = 9 ∧
      (g.cells.map (fun cell => cell.matchingWords.headD [])).Nodup ∧
      ∀ cell ∈ g.cells, cell.matchingWords ≠ [] ∧
        cell.matchingWords.headD [] ∈ cell.matchingWords ∧
        cell.matchingWords.headD [] ∈ avail := by
  intro fuel
  induction fuel with
  | zero =>
    intro σ g σ2 h
    exact absurd h (by simp [gridAttemptLoop])
  | succ n ih =>
    intro σ g σ2 h
    rw [gridAttemptLoop] at h
    split at h
    next σ1 hpick => exact ih σ1 g σ2 h
    next selection σ1 hpick =>
      split at h
      · exact ih σ1 g σ2 h
      · split at h
        next σ2a hfda => exact ih σ2a g σ2 h
        next asgn σ2a hfda =>
          split at h
          next cells1 σ3 hfy =>
            simp only [Prod.mk.injEq, Option.some.injEq] at h
            obtain ⟨h5, h6⟩ := h
            subst h5
            obtain ⟨hsel9, hselkeys, hselmem⟩ := pickConstraintSet_sound hpick
            obtain ⟨hnd, hsome, hmemA⟩ := findDistinctAssignment_sound hfda
            obtain ⟨hmlen, hmnodup, hmcells⟩ :=
              materializeCells_sound hnd hselkeys hsome hmemA
            have hp1 : Perm cells1 (materializeCells selection asgn) := by
              have hpf := fisherYates_perm (materializeCells selection asgn) σ2a
              rw [hfy] at hpf
              exact hpf
            have hp2 : Perm (if difficulty = TicTacDifficulty.easy then
                enforceEasyCenter cells1 pool else cells1)
                (materializeCells selection asgn) := by
              split_ifs with hd
              · exact (enforceEasyCenter_perm cells1 pool).trans hp1
              · exact hp1
            refine ⟨?_, ?_, ?_⟩
            · show (if difficulty = TicTacDifficulty.easy then
                enforceEasyCenter cells1 pool else cells1).length = 9
              rw [hp2.length_eq, hmlen, hsel9]
            · show ((if difficulty = TicTacDifficulty.easy then
                enforceEasyCenter cells1 pool else cells1).map
                  (fun cell => cell.matchingWords.headD [])).Nodup
              exact ((hp2.map _).symm).nodup hmnodup
            · intro cell hcell
              exact hmcells cell (hp2.subset hcell)

/-- Soundness of generateGrid: a returned grid has 9 cells with pairwise
distinct fronted words drawn from the pool words. -/
theorem generateGrid_sound {id : Nat} {pool : List ProcessedWord}
    {difficulty : TicTacDifficulty} {σ : Rng} {g : TicTacGrid} {σ2 : Rng}
    (h : generateGrid id pool difficulty σ = (some g, σ2)) :
    g.cells.length = 9 ∧
    (g.cells.map (fun cell => cell.matchingWords.headD [])).Nodup ∧
    ∀ cell ∈ g.cells, cell.matchingWords ≠ [] ∧
      cell.matchingWords.headD [] ∈ cell.matchingWords ∧
      cell.matchingWords.headD [] ∈ pool.map (fun p => p.word) := by
  rw [generateGrid] at h
  split at h
  · exact absurd h (by simp)
  · exact gridAttemptLoop_sound 50 σ g σ2 h

/-- Soundness of the four-board loop: on success it returns exactly the
requested number of boards, each produced by generateGrid. -/
theorem gridsLoop_sound {pool : List ProcessedWord}
    {difficulty : TicTacDifficulty} :
    ∀ (n i : Nat) (σ : Rng) (gs : List TicTacGrid) (σ2 : Rng),
      gridsLoop pool difficulty n i σ = (some gs, σ2) →
      gs.length = n ∧ ∀ g ∈ gs, ∃ idx σa σb,
        generateGrid idx pool difficulty σa = (some g, σb) := by
  intro n
  induction n with
  | zero =>
    intro i σ gs σ2 h
    simp only [gridsLoop, Prod.mk.injEq, Option.some.injEq] at h
    obtain ⟨h1, h2⟩ := h
    subst h1
    exact ⟨rfl, fun g hg => absurd hg (List.not_mem_nil g)⟩
  | succ n ih =>
    intro i σ gs σ2 h
    rw [gridsLoop] at h
    split at h
    next σ1 hgen => exact absurd h (by simp)
    next g1 σ1 hgen =>
      split at h
      next gs1 σ3 hloop =>
        simp only [Prod.mk.injEq, Option.some.injEq] at h
        obtain ⟨h1, h2⟩ := h
        subst h1
        obtain ⟨hlen, hmem⟩ := ih (i + 1) σ1 gs1 σ3 hloop
        refine ⟨by rw [List.length_cons, hlen], ?_⟩
        intro g hg
        rcases List.mem_cons.mp hg with rfl | hg2
        · exact ⟨i, σ, σ1, hgen⟩
        · exact hmem g hg2
      next σ3 hloop => exact absurd h (by simp)

/-- C3: for every TicTacGenerator.generate call that returns success:true,
every returned board has 9 cells whose assigned solution words (the word
listed first in each cell's matchingWords) are pairwise distinct within
the board, and each assigned word belongs to its cell's matching list and
to the processed word pool. -/
theorem claim_tictac_distinctness (wl : List Word) (cl : List (List Char))
    (d : TicTacDifficulty) (σ : Rng) (g : TicTacGrid)
    (hs : (ticTacGenerate wl cl d σ).success = true)
    (hg : g ∈ (ticTacGenerate wl cl d σ).grids) :
    g.cells.length = 9 ∧
    (g.cells.map (fun cell => cell.matchingWords.headD [])).Nodup ∧
    ∀ cell ∈ g.cells, cell.matchingWords ≠ [] ∧
      cell.matchingWords.headD [] ∈ cell.matchingWords ∧
      cell.matchingWords.headD [] ∈ (processInput wl cl).map (fun p => p.word) := by
  rw [ticTacGenerate] at hs hg
  by_cases hlt : (processInput wl cl).length < 9
  · rw [if_pos hlt] at hs
    exact absurd hs (by simp)
  · rw [if_neg hlt] at hs hg
    cases hloop : gridsLoop (processInput wl cl) d 4 0 σ with
    | mk o σ2 =>
      cases o with
      | none =>
        rw [hloop] at hs
        exact absurd hs (by simp)
      | some gs =>
        rw [hloop] at hg
        obtain ⟨hlen, hmem⟩ := gridsLoop_sound 4 0 σ gs σ2 hloop
        have hg2 : g ∈ gs := hg
        obtain ⟨idx, σa, σb, hgen⟩ := hmem g hg2
        exact generateGrid_sound hgen

/-- The words retained by processInput are the first-occurrence
deduplication of the cleaned nonempty words. -/
theorem processInputAux_map_word (cl : List (List Char)) :
    ∀ (ws : List Word) (idx : Nat) (seen : List Word),
      (processInputAux cl ws idx seen).map (fun p => p.word) =
        dedupFirstAux seen (cleanWordsOf ws) := by
  intro ws
  induction ws with
  | nil => intro idx seen; rfl
  | cons w rest ih =>
    intro idx seen
    by_cases hempty : sanitizeWord w = []
    · rw [processInputAux, if_pos (Or.inl hempty)]
      have hclean : cleanWordsOf (w :: rest) = cleanWordsOf rest := by
        simp [cleanWordsOf, hempty]
      rw [hclean]
      exact ih (idx + 1) seen
    · have hclean : cleanWordsOf (w :: rest) =
          sanitizeWord w :: cleanWordsOf rest := by
        simp [cleanWordsOf, hempty]
      rw [hclean]
      by_cases hseen : sanitizeWord w ∈ seen
      · rw [processInputAux, if_pos (Or.inr hseen), dedupFirstAux,
          if_pos hseen]
        exact ih (idx + 1) seen
      · rw [processInputAux, if_neg (by
          intro hor
          rcases hor with h1 | h2
          · exact hempty h1
          · exact hseen h2), dedupFirstAux, if_neg hseen, List.map_cons]
        rw [ih (idx + 1) (sanitizeWord w :: seen)]

/-- The first components of the normalized pairs are the cleaned nonempty
words, in order. -/
theorem rawPairsAux_map_fst (cl : List (List Char)) :
    ∀ (ws : List Word) (idx : Nat),
      (rawPairsAux cl ws idx).map Prod.fst = cleanWordsOf ws := by
  intro ws
  induction ws with
  | nil => intro idx; rfl
  | cons w rest ih =>
    intro idx
    by_cases hempty : sanitizeWord w = []
    · rw [rawPairsAux, if_pos hempty]
      have hclean : cleanWordsOf (w :: rest) = cleanWordsOf rest := by
        simp [cleanWordsOf, hempty]
      rw [hclean]
      exact ih (idx + 1)
    · have hclean : cleanWordsOf (w :: rest) =
          sanitizeWord w :: cleanWordsOf rest := by
        simp [cleanWordsOf, hempty]
      rw [rawPairsAux, if_neg hempty, hclean, List.map_cons, ih (idx + 1)]

/-- The first-occurrence deduplication has as many members as the finset of
the list. -/
theorem dedupFirst_length_toFinset [DecidableEq α] (l : List α) :
    (dedupFirst l).length = l.toFinset.card := by
  have h1 : Perm (dedupFirst l) l.dedup := by
    refine List.Subperm.antisymm ?_ ?_
    · refine List.subperm_of_subset (nodup_dedupFirst l) ?_
      intro a ha
      exact List.mem_dedup.mpr ((mem_dedupFirst l a).mp ha)
    · refine List.subperm_of_subset (List.nodup_dedup l) ?_
      intro a ha
      exact (mem_dedupFirst l a).mpr (List.mem_dedup.mp ha)
  rw [h1.length_eq, List.card_toFinset]

/-- Mapping can only merge duplicates: the deduplicated image is at most as
long as the deduplicated source. -/
theorem dedupFirst_map_length_le [DecidableEq α] [DecidableEq β]
    (f : α → β) (l : List α) :
    (dedupFirst (l.map f)).length ≤ (dedupFirst l).length := by
  rw [dedupFirst_length_toFinset, dedupFirst_length_toFinset]
  have himg : (l.map f).toFinset = l.toFinset.image f := by
    ext b
    simp [List.mem_toFinset, List.mem_map]
  rw [himg]
  exact Finset.card_image_le

/-- C6: with fewer than 9 unique (word, optional POS) pairs after
normalization, TicTacGenerator.generate fails immediately with no boards;
conversely every successful result carries exactly 4 boards. -/
theorem claim_tictac_min_input (wl : List Word) (cl : List (List Char))
    (d : TicTacDifficulty) (σ : Rng) :
    ((uniquePairs wl cl).length < 9 →
      ticTacGenerate wl cl d σ =
        { grids := [], success := false, difficulty := d }) ∧
    ((ticTacGenerate wl cl d σ).success = true →
      (ticTacGenerate wl cl d σ).grids.length = 4) := by
  constructor
  · intro hlt
    have hple : (processInput wl cl).length ≤ (uniquePairs wl cl).length := by
      have h1 : (processInput wl cl).length =
          (dedupFirst (cleanWordsOf wl)).length := by
        rw [← List.length_map (processInput wl cl) (fun p => p.word)]
        rw [processInput, processInputAux_map_word cl wl 0 []]
        rfl
      have h2 : cleanWordsOf wl = (rawPairsAux cl wl 0).map Prod.fst :=
        (rawPairsAux_map_fst cl wl 0).symm
      rw [h1, h2]
      exact dedupFirst_map_length_le Prod.fst (rawPairsAux cl wl 0)
    have h9 : (processInput wl cl).length < 9 := lt_of_le_of_lt hple hlt
    rw [ticTacGenerate, if_pos h9]
  · intro hs
    rw [ticTacGenerate] at hs ⊢
    by_cases hlt : (processInput wl cl).length < 9
    · rw [if_pos hlt] at hs
      exact absurd hs (by simp)
    · rw [if_neg hlt] at hs ⊢
      cases hloop : gridsLoop (processInput wl cl) d 4 0 σ with
      | mk o σ2 =>
        cases o with
        | none =>
          rw [hloop] at hs
          exact absurd hs (by simp)
        | some gs =>
          obtain ⟨hlen, _⟩ := gridsLoop_sound 4 0 σ gs σ2 hloop
          show gs.length = 4
          exact hlen

set_option maxRecDepth 400000 in
/-- Witness for C3 at a concrete successful generation. -/
theorem claim_tictac_distinctness_witness :
    ((ticTacGenerate ttNine [] TicTacDifficulty.easy []).grids.headD
        { id := 0, cells := [] }).cells.length = 9 ∧
    (((ticTacGenerate ttNine [] TicTacDifficulty.easy []).grids.headD
        { id := 0, cells := [] }).cells.map
      (fun cell => cell.matchingWords.headD [])).Nodup ∧
    ∀ cell ∈ ((ticTacGenerate ttNine [] TicTacDifficulty.easy []).grids.headD
        { id := 0, cells := [] }).cells, cell.matchingWords ≠ [] ∧
      cell.matchingWords.headD [] ∈ cell.matchingWords ∧
      cell.matchingWords.headD [] ∈
        (processInput ttNine []).map (fun p => p.word) :=
  claim_tictac_distinctness ttNine [] TicTacDifficulty.easy [] _
    (by decide) (by decide)

set_option maxRecDepth 400000 in
/-- Witness for C6: an eight-word input fails with no boards, and the
nine-word sample succeeds with exactly 4 boards. -/
theorem claim_tictac_min_input_witness :
    ticTacGenerate (List.take 8 ttNine) [] TicTacDifficulty.easy [] =
      { grids := [], success := false, difficulty := TicTacDifficulty.easy } ∧
    (ticTacGenerate ttNine [] TicTacDifficulty.easy []).grids.length = 4 :=
  ⟨(claim_tictac_min_input (List.take 8 ttNine) [] TicTacDifficulty.easy []).1
      (by decide),
   (claim_tictac_min_input ttNine [] TicTacDifficulty.easy []).2 (by decide)⟩

/-- One attempted length fires exactly on its condition, producing the
lowercased token including the period. -/
theorem posTryK_eq_some {clue : List Char} {k : Nat} {t : List Char} :
    posTryK clue k = some t ↔
      posCondK clue k ∧ t = (clue.take (k + 1)).map Char.toLower := by
  rw [posTryK]
  split_ifs with h
  · simp only [Bool.and_eq_true, decide_eq_true_eq] at h
    simp only [Option.some.injEq]
    constructor
    · intro ht
      exact ⟨⟨h.1.1, h.1.2, h.2⟩, ht.symm⟩
    · intro hh
      exact hh.2.symm
  · constructor
    · intro hc
      exact absurd hc (by simp)
    · intro hh
      refine absurd ?_ h
      simp only [Bool.and_eq_true, decide_eq_true_eq]
      exact ⟨⟨hh.1.1, hh.1.2.1⟩, hh.1.2.2⟩

/-- One attempted length stays silent exactly when its condition fails. -/
theorem posTryK_eq_none {clue : List Char} {k : Nat} :
    posTryK clue k = none ↔ ¬ posCondK clue k := by
  rw [posTryK]
  split_ifs with h
  · simp only [Bool.and_eq_true, decide_eq_true_eq] at h
    constructor
    · intro hc
      exact absurd hc (by simp)
    · intro hnc
      exact absurd ⟨h.1.1, h.1.2, h.2⟩ hnc
  · constructor
    · intro _ hc
      refine h ?_
      simp only [Bool.and_eq_true, decide_eq_true_eq]
      exact ⟨⟨hc.1, hc.2.1⟩, hc.2.2⟩
    · intro _
      rfl

set_option maxRecDepth 4000 in
/-- C7 counterexample: the POS regular expression carries the
case-insensitive flag, so the uppercase-leading clue N. person also gets a
POS tag, against the claimed lowercase-only condition. -/
theorem claim_tictac_pos_counterexample :
    getPOS ['N', '.', ' ', 'p'] = some ['n', '.'] ∧
    ((processInput [['W']] [['N', '.', ' ', 'p']]).headD
      { word := [], len := 0, start := ' ', endCh := ' ', pos := none }).pos =
      some ['n', '.'] ∧
    specLowercasePOSb ['N', '.', ' ', 'p'] = false := by decide

/-- C7 amended: a POS tag is extracted if and only if the clue begins with
1 to 4 ASCII letters of either case followed by a period, and the tag is
the lowercased leading token including the period. -/
theorem claim_tictac_pos_amended (clue : List Char) :
    ((getPOS clue).isSome = true ↔ ∃ k, 1 ≤ k ∧ k ≤ 4 ∧ posCondK clue k) ∧
    (∀ tag, getPOS clue = some tag → ∃ k, 1 ≤ k ∧ k ≤ 4 ∧ posCondK clue k ∧
      tag = (clue.take (k + 1)).map Char.toLower) := by
  cases h4 : posTryK clue 4 with
  | some t =>
    obtain ⟨hc, ht⟩ := posTryK_eq_some.mp h4
    have hg : getPOS clue = some t := by rw [getPOS, h4]
    rw [hg]
    constructor
    · exact ⟨fun _ => ⟨4, by omega, by omega, hc⟩, fun _ => rfl⟩
    · intro tag htag
      obtain rfl : t = tag := Option.some.inj htag
      exact ⟨4, by omega, by omega, hc, ht⟩
  | none =>
    cases h3 : posTryK clue 3 with
    | some t =>
      obtain ⟨hc, ht⟩ := posTryK_eq_some.mp h3
      have hg : getPOS clue = some t := by rw [getPOS, h4, h3]
      rw [hg]
      constructor
      · exact ⟨fun _ => ⟨3, by omega, by omega, hc⟩, fun _ => rfl⟩
      · intro tag htag
        obtain rfl : t = tag := Option.some.inj htag
        exact ⟨3, by omega, by omega, hc, ht⟩
    | none =>
      cases h2 : posTryK clue 2 with
      | some t =>
        obtain ⟨hc, ht⟩ := posTryK_eq_some.mp h2
        have hg : getPOS clue = some t := by rw [getPOS, h4, h3, h2]
        rw [hg]
        constructor
        · exact ⟨fun _ => ⟨2, by omega, by omega, hc⟩, fun _ => rfl⟩
        · intro tag htag
          obtain rfl : t = tag := Option.some.inj htag
          exact ⟨2, by omega, by omega, hc, ht⟩
      | none =>
        cases h1 : posTryK clue 1 with
        | some t =>
          obtain ⟨hc, ht⟩ := posTryK_eq_some.mp h1
          have hg : getPOS clue = some t := by
            rw [getPOS, h4, h3, h2]
            exact h1
          rw [hg]
          constructor
          · exact ⟨fun _ => ⟨1, by omega, by omega, hc⟩, fun _ => rfl⟩
          · intro tag htag
            obtain rfl : t = tag := Option.some.inj htag
            exact ⟨1, by omega, by omega, hc, ht⟩
        | none =>
          have hg : getPOS clue = none := by
            rw [getPOS, h4, h3, h2]
            exact h1
          rw [hg]
          constructor
          · constructor
            · intro hi
              exact absurd hi (by simp)
            · intro hex
              obtain ⟨k, hk1, hk4, hc⟩ := hex
              exfalso
              have hk : k = 1 ∨ k = 2 ∨ k = 3 ∨ k = 4 := by omega
              rcases hk with rfl | rfl | rfl | rfl
              · exact (posTryK_eq_none.mp h1) hc
              · exact (posTryK_eq_none.mp h2) hc
              · exact (posTryK_eq_none.mp h3) hc
              · exact (posTryK_eq_none.mp h4) hc
          · intro tag htag
            exact absurd htag (by simp)

/-- Witness for the amended C7 at a concrete clue with a POS prefix. -/
theorem claim_tictac_pos_amended_witness :
    (∃ k, 1 ≤ k ∧ k ≤ 4 ∧ posCondK ['a', 'd', 'v', '.', ' ', 'q'] k) ∧
    (∃ k, 1 ≤ k ∧ k ≤ 4 ∧ posCondK ['a', 'd', 'v', '.', ' ', 'q'] k ∧
      ['a', 'd', 'v', '.'] =
        ((['a', 'd', 'v', '.', ' ', 'q'] : List Char).take (k + 1)).map
          Char.toLower) :=
  ⟨(claim_tictac_pos_amended ['a', 'd', 'v', '.', ' ', 'q']).1.mp (by decide),
   (claim_tictac_pos_amended ['a', 'd', 'v', '.', ' ', 'q']).2
     ['a', 'd', 'v', '.'] (by decide)⟩

/-- C9: each of the three engines is a pure function of its inputs and the
injected random draw sequence: two calls with identical inputs, identical
parameters and identical draw sequences return identical results. -/
theorem claim_determinism (σ1 σ2 : Rng) (h : σ1 = σ2)
    (size : Nat) (inputs : List WordInput) (wl : List Word) (limit : Nat)
    (twl : List Word) (tcl : List (List Char)) (d : TicTacDifficulty) :
    crosswordGenerate size inputs σ1 = crosswordGenerate size inputs σ2 ∧
    dgaGenerate wl limit σ1 = dgaGenerate wl limit σ2 ∧
    ticTacGenerate twl tcl d σ1 = ticTacGenerate twl tcl d σ2 := by
  subst h
  exact ⟨rfl, rfl, rfl⟩

/-- Witness for C9 at concrete inputs and a concrete draw sequence. -/
theorem claim_determinism_witness :
    crosswordGenerate 9 sampleCwInputs [3, 1, 4] =
      crosswordGenerate 9 sampleCwInputs [3, 1, 4] ∧
    dgaGenerate sampleSixWords 10 [3, 1, 4] =
      dgaGenerate sampleSixWords 10 [3, 1, 4] ∧
    ticTacGenerate ttNine [] TicTacDifficulty.easy [3, 1, 4] =
      ticTacGenerate ttNine [] TicTacDifficulty.easy [3, 1, 4] :=
  claim_determinism [3, 1, 4] [3, 1, 4] rfl 9 sampleCwInputs sampleSixWords 10
    ttNine [] TicTacDifficulty.easy

end Vocabgen
